import Mathlib

/-!
Shallow embedding of the masked-token decoding core of
`autoprompt/continuous_trigger_mlm.py` (`forward_w_triggers` and `decode`).

Modelling conventions:
* A batch tensor of token ids is `List (List Nat)` (batch rows, then sequence
  positions); a boolean mask is `List (List Bool)`; logits are
  `List (List (List Int))` (batch, position, vocabulary).  Logit values are
  integers; the float constant `-1e32` used by the iterative strategy to
  suppress logits is rendered as the integer `negHuge = -(10^32)`.
* The underlying pretrained model is abstract: a record with an embedding
  lookup `embeds`, the learned trigger tensor `relation_embeds` (the Trigger
  Parameter Set) and a `forward` function from embedding sequences and
  attention masks to logits.
* In-place tensor mutation is rendered by explicit state passing: `decode`
  returns the bundle as it stands when the Python function returns (its
  `input_ids` and `predict_mask` tensors are mutated in place by the
  monotonic and iterative strategies).
* Fallible operations return `Except String`; the three runtime failures of
  the source (the decoding-strategy assertion, the shape mismatch of the
  boolean-mask assignment and the `IndexError` from `nonzero()[0,1]` on an
  empty mask) each carry a fixed error string.  Paired with the result is a
  `Nat` that counts how many times the underlying model's forward pass has
  been invoked.
* PyTorch operations are modelled at the granularity the source uses them:
  `nonzero()` enumerates true positions in row-major order, `argmax` and
  `max` return the first maximal entry, boolean-mask assignment
  `x[mask] = v` requires the number of true entries to equal the leading
  dimension of `v` unless that leading dimension is 1, in which case the
  single row is broadcast to every selected position.
-/

/-- The ignore sentinel `-100` that the output buffer is filled with. -/
def ignoreIndex : Int := -100

/-- Integer stand-in for the float `-1e32` used to suppress logits. -/
def negHuge : Int := -(10 : Int) ^ 32

/-- Error string for the `assert decoding_strategy in [...]` failure. -/
def assertErr : String := "AssertionError: unknown decoding strategy"

/-- Error string for a shape mismatch in the boolean-mask assignment. -/
def shapeErr : String := "RuntimeError: shape mismatch in masked assignment"

/-- Error string for `predict_mask.nonzero()[0,1]` on an all-false mask. -/
def idxErr : String := "IndexError: index 0 is out of bounds for dimension 0"

/-- Total number of `true` entries of a boolean matrix (`mask.sum().item()`). -/
def countTrue (m : List (List Bool)) : Nat :=
  (m.map fun r => r.countP id).sum

/-- Cell of a matrix with a default, `m[r][c]` as `getD`. -/
def get2 (d : α) (m : List (List α)) (r c : Nat) : α :=
  (m.getD r []).getD c d

/-- Write a single cell of a matrix (`m[r][c] = v`); out-of-range is a no-op. -/
def set2 (m : List (List α)) (r c : Nat) (v : α) : List (List α) :=
  m.set r ((m.getD r []).set c v)

/-- `torch.max` over a vector: value of the maximal entry
(`negHuge` on the empty vector, which PyTorch rejects). -/
def maxVal : List Int → Int
  | [] => negHuge
  | x :: xs => xs.foldl max x

/-- `torch.argmax` over a vector: index of the first maximal entry
(0 on the empty vector, which PyTorch rejects). -/
def argmaxIdx (xs : List Int) : Nat :=
  xs.findIdx fun x => decide (maxVal xs ≤ x)

/-- `t.repeat((n, 1))` for a 2-D tensor: the rows tiled `n` times. -/
def tile : Nat → List (List Int) → List (List Int)
  | 0, _ => []
  | n + 1, xs => xs ++ tile n xs

/-- One row of the sequential boolean-mask assignment: each `true` position
consumes the next row of `src`; returns the rewritten row and the remaining
source rows. -/
def fillRow : List (List Int) → List Bool → List (List Int) →
    List (List Int) × List (List Int)
  | es, [], src => (es, src)
  | [], _, src => ([], src)
  | e :: es, m :: ms, src =>
      if m then
        let rest := fillRow es ms src.tail
        (src.headI :: rest.1, rest.2)
      else
        let rest := fillRow es ms src
        (e :: rest.1, rest.2)

/-- `embeds[mask] = src` with exact count match: true positions are assigned
the rows of `src` in row-major order. -/
def fill2 : List (List (List Int)) → List (List Bool) → List (List Int) →
    List (List (List Int))
  | [], _, _ => []
  | e :: es, masks, src =>
      let row := fillRow e masks.headI src
      row.1 :: fill2 es masks.tail row.2

/-- One row of the broadcast boolean-mask assignment: every true position is
assigned the same vector `v`. -/
def broadcastRow (v : List Int) : List (List Int) → List Bool → List (List Int)
  | es, [] => es
  | [], _ => []
  | e :: es, m :: ms => (if m then v else e) :: broadcastRow v es ms

/-- `embeds[mask] = src` when `src` has a single row: that row is broadcast to
every true position. -/
def fillBroadcast2 (es : List (List (List Int))) (mask : List (List Bool))
    (v : List Int) : List (List (List Int)) :=
  match es, mask with
  | [], _ => []
  | e :: es, masks => broadcastRow v e masks.headI :: fillBroadcast2 es masks.tail v

/-- One row of `output[mask] = preds[mask]`: positions where the mask is true
take the value of `src` at the same position, other positions keep `tgt`. -/
def scatterRow : List Bool → List Int → List Int → List Int
  | [], _, ts => ts
  | _, _, [] => []
  | m :: ms, ss, t :: ts => (if m then ss.headI else t) :: scatterRow ms ss.tail ts

/-- `output[mask] = preds[mask]` on matrices, row by row. -/
def scatter2 : List (List Bool) → List (List Int) → List (List Int) →
    List (List Int)
  | [], _, ts => ts
  | _, _, [] => []
  | m :: ms, ss, t :: ts => scatterRow m ss.headI t :: scatter2 ms ss.tail ts

/-- `m[:, j] = vs`: per-row write of one column from a vector of values. -/
def setCol : List (List α) → Nat → List α → List (List α)
  | [], _, _ => []
  | row :: rest, _, [] => row :: rest
  | row :: rest, j, v :: vs => row.set j v :: setCol rest j vs

/-- `mask[:, j] = False`: clear one column in every row. -/
def setColFalse (m : List (List Bool)) (j : Nat) : List (List Bool) :=
  m.map fun row => row.set j false

/-- `predict_mask.nonzero()[0,1]`: the column of the first true entry in
row-major order, or `none` when the mask is all false (an `IndexError` in the
source). -/
def firstTrueCol : List (List Bool) → Option Nat
  | [] => none
  | r :: rs => if r.any id then some (r.findIdx id) else firstTrueCol rs

/-- Row-major position of the first true entry of a boolean matrix. -/
def firstTruePosAux : List (List Bool) → Nat → Option (Nat × Nat)
  | [], _ => none
  | r :: rs, i => if r.any id then some (i, r.findIdx id) else firstTruePosAux rs (i + 1)

/-- Row-major position of the first true entry of a boolean matrix. -/
def firstTruePos (m : List (List Bool)) : Option (Nat × Nat) :=
  firstTruePosAux m 0

/-- Scan for the row-major first position attaining the global maximum of a
matrix, given the best position and value so far. -/
def argmax2Aux : List (List Int) → Nat → Nat × Nat → Int → Nat × Nat
  | [], _, best, _ => best
  | row :: rest, r, best, bv =>
      if bv < maxVal row then argmax2Aux rest (r + 1) (r, argmaxIdx row) (maxVal row)
      else argmax2Aux rest (r + 1) best bv

/-- `logits[~predict_mask] = negHuge` on one batch row: positions whose mask
entry is false get their whole vocabulary row suppressed. -/
def suppressRow : List (List Int) → List Bool → List (List Int)
  | [], _ => []
  | v :: vs, [] => v :: vs
  | v :: vs, m :: ms => (if m then v else v.map fun _ => negHuge) :: suppressRow vs ms

/-- `logits[~predict_mask] = negHuge` on the whole batch. -/
def suppress : List (List (List Int)) → List (List Bool) → List (List (List Int))
  | [], _ => []
  | l :: ls, [] => l :: ls
  | l :: ls, m :: ms => suppressRow l m :: suppress ls ms

/-- One batch row of the iterative strategy's fancy-index write
`input_ids[:, idx] = preds[:, idx]`: each column listed in `idx` receives the
value of `predsRow` at that column. -/
def writeRowCols (row : List α) (predsRow : List α) (dflt : α) (idx : List Nat) :
    List α :=
  idx.foldl (fun acc j => acc.set j (predsRow.getD j dflt)) row

/-- `input_ids[:, idx] = preds[:, idx]` across the batch: row `r` is written at
every column of `idx` with row `r` of `preds` at that column. -/
def writeCols (dflt : α) : List (List α) → List Nat → List (List α) → List (List α)
  | [], _, _ => []
  | row :: rest, idx, ps => writeRowCols row ps.headI dflt idx :: writeCols dflt rest idx ps.tail

/-- `predict_mask[:, idx] = False`: clear every column of `idx` in every row. -/
def clearCols (m : List (List Bool)) (idx : List Nat) : List (List Bool) :=
  m.map fun row => idx.foldl (fun acc j => acc.set j false) row

/-- Row-major first position attaining the global maximum of a matrix:
the row with the globally maximal top value and, within it, the first
maximal column. -/
def argmax2 (m : List (List Int)) : Option (Nat × Nat) :=
  match m with
  | [] => none
  | row :: rest => some (argmax2Aux rest 1 (0, argmaxIdx row) (maxVal row))

/-- The abstract pretrained masked language model: an embedding lookup, the
learned Trigger Parameter Set `relation_embeds`, and the underlying forward
pass from input embeddings and attention mask to vocabulary logits. -/
structure Model where
  embeds : Nat → List Int
  relation_embeds : List (List Int)
  forward : List (List (List Int)) → List (List Nat) → List (List (List Int))

/-- The Model Input Bundle: token ids, trigger mask, predict mask and
attention mask, one row per batch example. -/
structure ModelInputs where
  input_ids : List (List Nat)
  trigger_mask : List (List Bool)
  predict_mask : List (List Bool)
  attention_mask : List (List Nat)
deriving DecidableEq

/-- The caller-facing dictionary of model inputs; `none` marks an entry that
has been popped.  Used to render the copy-then-pop discipline of
`forward_w_triggers`. -/
structure InputDict where
  input_ids : Option (List (List Nat))
  trigger_mask : Option (List (List Bool))
  predict_mask : Option (List (List Bool))
  attention_mask : Option (List (List Nat))
deriving DecidableEq

/-- `d.pop('trigger_mask')`: the value and the dictionary without the entry. -/
def InputDict.popTriggerMask (d : InputDict) :
    Option (List (List Bool)) × InputDict :=
  (d.trigger_mask, { d with trigger_mask := none })

/-- `d.pop('predict_mask')`: the value and the dictionary without the entry. -/
def InputDict.popPredictMask (d : InputDict) :
    Option (List (List Bool)) × InputDict :=
  (d.predict_mask, { d with predict_mask := none })

/-- `d.pop('input_ids')`: the value and the dictionary without the entry. -/
def InputDict.popInputIds (d : InputDict) :
    Option (List (List Nat)) × InputDict :=
  (d.input_ids, { d with input_ids := none })

/-- The token-embedding lookup `model.embeds(input_ids)`: a fresh tensor,
one embedding vector per position. -/
def inputEmbeds (model : Model) (ids : List (List Nat)) : List (List (List Int)) :=
  ids.map fun row => row.map model.embeds

/-- `forward_w_triggers` on the tensor level.  Computes the token embeddings,
overwrites the embedding vectors at the trigger-mask positions with
`relation_embeds.repeat((batch_size, 1))` (exact count match, or broadcast of
a single row), and invokes the underlying forward pass on the result together
with the attention mask.  Returns the number of underlying forward
invocations together with the logits, or the shape-mismatch error when the
masked assignment is ill-formed (raised before the model forward runs). -/
def forward_w_triggers (model : Model) (b : ModelInputs) :
    Nat × Except String (List (List (List Int))) :=
  let batch_size := b.input_ids.length
  let inputs_embeds := inputEmbeds model b.input_ids
  let src := tile batch_size model.relation_embeds
  if countTrue b.trigger_mask = src.length then
    (1, .ok (model.forward (fill2 inputs_embeds b.trigger_mask src) b.attention_mask))
  else if src.length = 1 then
    (1, .ok (model.forward (fillBroadcast2 inputs_embeds b.trigger_mask src.headI) b.attention_mask))
  else
    (0, .error shapeErr)

/-- Error string for a missing dictionary key. -/
def keyErr : String := "KeyError"

/-- `forward_w_triggers` at the dictionary level.  The source first takes a
shallow copy (`model_inputs = model_inputs.copy()`) and performs its three
destructive `pop` operations on that copy, so the caller's dictionary is
returned untouched; the embeddings tensor it writes into is freshly built
from `input_ids`.  The first component is the caller's dictionary as it
stands after the call. -/
def forward_w_triggers_dict (model : Model) (d : InputDict) :
    InputDict × (Nat × Except String (List (List (List Int)))) :=
  let m0 := d
  let p1 := m0.popTriggerMask
  let p2 := p1.2.popPredictMask
  let p3 := p2.2.popInputIds
  match p1.1, p2.1, p3.1, p3.2.attention_mask with
  | some tm, some pm, some ids, some am =>
      (d, forward_w_triggers model ⟨ids, tm, pm, am⟩)
  | _, _, _, _ => (d, (0, .error keyErr))

/-- The output buffer: `torch.zeros_like(input_ids).fill_(-100)`. -/
def mkOutput (ids : List (List Nat)) : List (List Int) :=
  ids.map fun row => row.map fun _ => ignoreIndex

/-- Run `n` iterations of a decoding step, accumulating the forward-pass
count and aborting on the first error. -/
def decodeLoop
    (step : ModelInputs × List (List Int) →
      Nat × Except String (ModelInputs × List (List Int))) :
    Nat → ModelInputs × List (List Int) →
      Nat × Except String (ModelInputs × List (List Int))
  | 0, st => (0, .ok st)
  | n + 1, st =>
      match step st with
      | (c, .error e) => (c, .error e)
      | (c, .ok st1) =>
          let r := decodeLoop step n st1
          (c + r.1, r.2)

/-- One iteration of the monotonic strategy: run a forward pass, take
`idx = predict_mask.nonzero()[0,1]` (the column of the row-major first true
entry), commit the per-row argmax at that column into `input_ids` and the
output buffer, and clear that column of the predict mask in every row. -/
def monotonicStep (model : Model) (st : ModelInputs × List (List Int)) :
    Nat × Except String (ModelInputs × List (List Int)) :=
  match forward_w_triggers model st.1 with
  | (n, .error e) => (n, .error e)
  | (n, .ok logits) =>
      match firstTrueCol st.1.predict_mask with
      | none => (n, .error idxErr)
      | some j =>
          let pred : List Nat := logits.map fun row => argmaxIdx (row.getD j [])
          (n, .ok ({ st.1 with
                      input_ids := setCol st.1.input_ids j pred,
                      predict_mask := setColFalse st.1.predict_mask j },
                    setCol st.2 j (pred.map Int.ofNat)))

/-- One iteration of the iterative strategy: run a forward pass, suppress the
logits outside the predict mask, take per-position maxima and argmaxima, let
`idx` be the per-row argmax column of the top scores, and write
`preds[:, idx]` into `input_ids` and the output buffer while clearing those
columns of the predict mask. -/
def iterativeStep (model : Model) (st : ModelInputs × List (List Int)) :
    Nat × Except String (ModelInputs × List (List Int)) :=
  match forward_w_triggers model st.1 with
  | (n, .error e) => (n, .error e)
  | (n, .ok logits0) =>
      let logits := suppress logits0 st.1.predict_mask
      let top_scores := logits.map fun row => row.map maxVal
      let preds : List (List Nat) := logits.map fun row => row.map argmaxIdx
      let idx : List Nat := top_scores.map argmaxIdx
      (n, .ok ({ st.1 with
                  input_ids := writeCols 0 st.1.input_ids idx preds,
                  predict_mask := clearCols st.1.predict_mask idx },
                writeCols 0 st.2 idx (preds.map fun row => row.map Int.ofNat)))

/-- The three legal decoding strategies. -/
def strategies : List String := ["parallel", "monotonic", "iterative"]

/-- `decode(model, model_inputs, decoding_strategy)`.  Asserts the strategy is
one of the three legal names, allocates an output buffer filled with the
ignore sentinel, and dispatches: parallel takes a single forward pass and
scatters per-position argmaxima at the predict-mask positions; monotonic and
iterative run `predict_mask.sum()` iterations of their step.  Returns the
forward-pass count together with the bundle as mutated in place by the call
and the output buffer. -/
def decode (model : Model) (b : ModelInputs) (decoding_strategy : String) :
    Nat × Except String (ModelInputs × List (List Int)) :=
  if decoding_strategy ∈ strategies then
    let output := mkOutput b.input_ids
    if decoding_strategy = "parallel" then
      match forward_w_triggers model b with
      | (n, .error e) => (n, .error e)
      | (n, .ok logits) =>
          let preds := logits.map fun row => row.map fun v => Int.ofNat (argmaxIdx v)
          (n, .ok (b, scatter2 b.predict_mask preds output))
    else if decoding_strategy = "monotonic" then
      decodeLoop (monotonicStep model) (countTrue b.predict_mask) (b, output)
    else
      decodeLoop (iterativeStep model) (countTrue b.predict_mask) (b, output)
  else
    (0, .error assertErr)

/-- Modelled from the spec: one iteration of the monotonic strategy as the
specification words it, restated for comparison with `monotonicStep` — run a
forward pass, locate the first remaining predict position in left-to-right
(row-major) order, and commit the argmax token at that single position into
the token ids and the output buffer, clearing that one position. -/
def monotonicSpecStep (model : Model) (st : ModelInputs × List (List Int)) :
    Nat × Except String (ModelInputs × List (List Int)) :=
  match forward_w_triggers model st.1 with
  | (n, .error e) => (n, .error e)
  | (n, .ok logits) =>
      match firstTruePos st.1.predict_mask with
      | none => (n, .error idxErr)
      | some rc =>
          let pred := argmaxIdx ((logits.getD rc.1 []).getD rc.2 [])
          (n, .ok ({ st.1 with
                      input_ids := set2 st.1.input_ids rc.1 rc.2 pred,
                      predict_mask := set2 st.1.predict_mask rc.1 rc.2 false },
                    set2 st.2 rc.1 rc.2 (Int.ofNat pred)))

/-- Modelled from the spec: the monotonic strategy as the specification words
it, iterated as many times as there are predict positions. -/
def monotonicSpecRun (model : Model) (b : ModelInputs) :
    Nat × Except String (ModelInputs × List (List Int)) :=
  decodeLoop (monotonicSpecStep model) (countTrue b.predict_mask) (b, mkOutput b.input_ids)

/-- Modelled from the spec: one iteration of the iterative strategy as the
specification words it, restated for comparison with `iterativeStep` — run a
forward pass, suppress logits outside the predict mask, find the single
(row, position) pair with the globally highest suppressed logit value, and
commit the argmax token at that one pair, clearing that one position. -/
def iterativeSpecStep (model : Model) (st : ModelInputs × List (List Int)) :
    Nat × Except String (ModelInputs × List (List Int)) :=
  match forward_w_triggers model st.1 with
  | (n, .error e) => (n, .error e)
  | (n, .ok logits0) =>
      let logits := suppress logits0 st.1.predict_mask
      let top_scores := logits.map fun row => row.map maxVal
      match argmax2 top_scores with
      | none => (n, .error idxErr)
      | some rc =>
          let pred := argmaxIdx ((logits.getD rc.1 []).getD rc.2 [])
          (n, .ok ({ st.1 with
                      input_ids := set2 st.1.input_ids rc.1 rc.2 pred,
                      predict_mask := set2 st.1.predict_mask rc.1 rc.2 false },
                    set2 st.2 rc.1 rc.2 (Int.ofNat pred)))

/-- Modelled from the spec: the iterative strategy as the specification words
it, iterated as many times as there are predict positions. -/
def iterativeSpecRun (model : Model) (b : ModelInputs) :
    Nat × Except String (ModelInputs × List (List Int)) :=
  decodeLoop (iterativeSpecStep model) (countTrue b.predict_mask) (b, mkOutput b.input_ids)

/-- The output buffer of a decode result, when it returned one. -/
def getOut (r : Nat × Except String (ModelInputs × List (List Int))) :
    Option (List (List Int)) :=
  r.2.toOption.map Prod.snd

/-- A matrix has `B` rows, each of length `L`. -/
def Dims2 (m : List (List α)) (B L : Nat) : Prop :=
  m.length = B ∧ ∀ row ∈ m, row.length = L

/-- All four tensors of a bundle have batch size `B` and sequence length `L`. -/
def WFBundle (b : ModelInputs) (B L : Nat) : Prop :=
  Dims2 b.input_ids B L ∧ Dims2 b.trigger_mask B L ∧
    Dims2 b.predict_mask B L ∧ Dims2 b.attention_mask B L

/-- The underlying model returns, on any well-shaped batch of embeddings,
logits of shape `B × L × V` whose entries all exceed the suppression
constant. -/
def LogitsGood (model : Model) (B L V : Nat) : Prop :=
  ∀ e a, e.length = B → (∀ row ∈ e, row.length = L) →
    (model.forward e a).length = B ∧
      ∀ row ∈ model.forward e a, row.length = L ∧
        ∀ cell ∈ row, cell.length = V ∧ ∀ x ∈ cell, negHuge < x

/-- One row of the decode postcondition: predict positions hold a token id
(a nonnegative vocabulary index), all other positions the ignore sentinel. -/
def postRow : List Bool → List Int → Bool
  | [], [] => true
  | m :: ms, v :: vs =>
      (if m then decide (0 ≤ v) else decide (v = ignoreIndex)) && postRow ms vs
  | _, _ => false

/-- The decode postcondition against the original predict mask: same shape,
predict positions hold a token id, other positions the ignore sentinel. -/
def postcondHolds : List (List Bool) → List (List Int) → Bool
  | [], [] => true
  | m :: ms, o :: os => postRow m o && postcondHolds ms os
  | _, _ => false

/-- Select rows of a matrix by a list of row indices. -/
def gatherRows (p : List Nat) (m : List (List α)) : List (List α) :=
  p.map fun i => m.getD i []

/-- Select rows of a whole bundle by a list of row indices. -/
def gatherBundle (p : List Nat) (b : ModelInputs) : ModelInputs :=
  ⟨gatherRows p b.input_ids, gatherRows p b.trigger_mask,
    gatherRows p b.predict_mask, gatherRows p b.attention_mask⟩

/-! ### Basic lemmas about the list-level tensor operations -/

theorem tail_getD (l : List α) (n : Nat) (d : α) : l.tail.getD n d = l.getD (n + 1) d := by
  cases l <;> simp [List.getD_cons_succ]

theorem getD_set_eq (l : List α) (i : Nat) (v d : α) (h : i < l.length) :
    (l.set i v).getD i d = v := by
  rw [List.getD_eq_getElem _ _ (by simpa using h)]
  exact List.getElem_set_self _

theorem getD_set_ne (l : List α) (i j : Nat) (v d : α) (h : i ≠ j) :
    (l.set i v).getD j d = l.getD j d := by
  by_cases hj : j < l.length
  · rw [List.getD_eq_getElem _ _ (by simpa using hj), List.getD_eq_getElem _ _ hj]
    exact List.getElem_set_ne h _
  · rw [List.getD_eq_default _ _ (by simpa using Nat.le_of_not_lt hj),
      List.getD_eq_default _ _ (Nat.le_of_not_lt hj)]

theorem getD_set_false (l : List Bool) (i : Nat) : (l.set i false).getD i false = false := by
  by_cases h : i < l.length
  · exact getD_set_eq l i false false h
  · exact List.getD_eq_default _ _ (by simpa using Nat.le_of_not_lt h)

theorem getD_map_lt (f : α → β) (l : List α) (i : Nat) (d1 : β) (d2 : α) (h : i < l.length) :
    (l.map f).getD i d1 = f (l.getD i d2) := by
  rw [List.getD_eq_getElem _ _ (by simpa using h), List.getD_eq_getElem _ _ h]
  exact List.getElem_map f

theorem countP_zero_getD (l : List Bool) (j : Nat) (h : l.countP id = 0) :
    l.getD j false = false := by
  by_cases hj : j < l.length
  · rw [List.getD_eq_getElem _ _ hj]
    have := (List.countP_eq_zero).1 h (l[j]) (List.getElem_mem hj)
    simpa using this
  · exact List.getD_eq_default _ _ (Nat.le_of_not_lt hj)

theorem countP_set_false (l : List Bool) (j : Nat) (hj : j < l.length)
    (ht : l.getD j false = true) : (l.set j false).countP id + 1 = l.countP id := by
  induction l generalizing j with
  | nil => simp at hj
  | cons x xs ih =>
      cases j with
      | zero =>
          simp only [List.getD_cons_zero] at ht
          subst ht
          simp [List.countP_cons]
      | succ j =>
          simp only [List.getD_cons_succ] at ht
          have hj2 : j < xs.length := by simpa using hj
          have := ih j hj2 ht
          simp only [List.set_cons_succ, List.countP_cons]
          omega

theorem foldl_max_init_le (l : List Int) (a : Int) : a ≤ l.foldl max a := by
  induction l generalizing a with
  | nil => exact le_refl a
  | cons x xs ih => exact le_trans (le_max_left a x) (ih (max a x))

theorem foldl_max_mem_le (l : List Int) (a x : Int) (hx : x ∈ l) : x ≤ l.foldl max a := by
  induction l generalizing a with
  | nil => simp at hx
  | cons y ys ih =>
      rcases List.mem_cons.1 hx with h | h
      · subst h
        exact le_trans (le_max_right a x) (foldl_max_init_le ys (max a x))
      · exact ih (max a y) h

theorem foldl_max_cases (l : List Int) (a : Int) : l.foldl max a = a ∨ l.foldl max a ∈ l := by
  induction l generalizing a with
  | nil => exact Or.inl rfl
  | cons x xs ih =>
      rcases ih (max a x) with h | h
      · rcases max_choice a x with h2 | h2
        · simp only [List.foldl_cons]
          rw [h, h2]
          exact Or.inl rfl
        · simp only [List.foldl_cons]
          rw [h, h2]
          exact Or.inr (List.mem_cons_self x xs)
      · exact Or.inr (List.mem_cons_of_mem x h)

theorem le_maxVal_of_mem (l : List Int) (x : Int) (hx : x ∈ l) : x ≤ maxVal l := by
  cases l with
  | nil => simp at hx
  | cons y ys =>
      rcases List.mem_cons.1 hx with h | h
      · subst h
        exact foldl_max_init_le ys x
      · exact foldl_max_mem_le ys y x h

theorem maxVal_mem (l : List Int) (h : l ≠ []) : maxVal l ∈ l := by
  cases l with
  | nil => exact absurd rfl h
  | cons y ys =>
      rcases foldl_max_cases ys y with h2 | h2
      · rw [maxVal, h2]
        exact List.mem_cons_self y ys
      · rw [maxVal]
        exact List.mem_cons_of_mem y h2

theorem maxVal_const (l : List Int) (c : Int) (hne : l ≠ []) (h : ∀ x ∈ l, x = c) :
    maxVal l = c := by
  exact h (maxVal l) (maxVal_mem l hne)

theorem argmaxIdx_lt_length (l : List Int) (h : l ≠ []) : argmaxIdx l < l.length := by
  apply List.findIdx_lt_length_of_exists
  exact ⟨maxVal l, maxVal_mem l h, by simp⟩

theorem getD_argmaxIdx (l : List Int) (h : l ≠ []) : l.getD (argmaxIdx l) 0 = maxVal l := by
  have hlt : argmaxIdx l < l.length := argmaxIdx_lt_length l h
  have hp : decide (maxVal l ≤ l[argmaxIdx l]) = true := by
    have := @List.findIdx_getElem _ (fun x => decide (maxVal l ≤ x)) l (by simpa [argmaxIdx] using hlt)
    simpa [argmaxIdx] using this
  have hle : maxVal l ≤ l[argmaxIdx l] := by simpa using hp
  have hge : l[argmaxIdx l] ≤ maxVal l :=
    le_maxVal_of_mem l _ (List.getElem_mem hlt)
  rw [List.getD_eq_getElem _ _ hlt]
  exact le_antisymm hge hle

theorem argmaxIdx_nil : argmaxIdx [] = 0 := rfl

theorem argmaxIdx_zero_of_head_max (x : Int) (xs : List Int)
    (h : maxVal (x :: xs) ≤ x) : argmaxIdx (x :: xs) = 0 := by
  rw [argmaxIdx, List.findIdx_cons]
  simp [h]

/-! ### Shape lemmas -/

theorem tile_length (n : Nat) (xs : List (List Int)) : (tile n xs).length = n * xs.length := by
  induction n with
  | zero => simp [tile]
  | succ n ih => simp [tile, ih, Nat.succ_mul, Nat.add_comm]

theorem fillRow_fst_length (es : List (List Int)) (ms : List Bool) (src : List (List Int)) :
    (fillRow es ms src).1.length = es.length := by
  induction es generalizing ms src with
  | nil => cases ms <;> simp [fillRow]
  | cons e es ih =>
      cases ms with
      | nil => simp [fillRow]
      | cons m tms =>
          by_cases hm : m <;> simp [fillRow, hm, ih]

theorem fill2_length (es : List (List (List Int))) (masks : List (List Bool))
    (src : List (List Int)) : (fill2 es masks src).length = es.length := by
  induction es generalizing masks src with
  | nil => simp [fill2]
  | cons e es ih => simp [fill2, ih]

theorem fill2_rows_length (es : List (List (List Int))) (masks : List (List Bool))
    (src : List (List Int)) (L : Nat) (h : ∀ row ∈ es, row.length = L) :
    ∀ row ∈ fill2 es masks src, row.length = L := by
  induction es generalizing masks src with
  | nil => simp [fill2]
  | cons e es ih =>
      intro row hrow
      rcases List.mem_cons.1 hrow with h1 | h1
      · subst h1
        rw [fillRow_fst_length]
        exact h e (List.mem_cons_self e es)
      · exact ih _ _ (fun r hr => h r (List.mem_cons_of_mem e hr)) row h1

theorem broadcastRow_length (v : List Int) (es : List (List Int)) (ms : List Bool) :
    (broadcastRow v es ms).length = es.length := by
  induction es generalizing ms with
  | nil => cases ms <;> simp [broadcastRow]
  | cons e es ih =>
      cases ms with
      | nil => simp [broadcastRow]
      | cons m tms => simp [broadcastRow, ih]

theorem fillBroadcast2_length (es : List (List (List Int))) (masks : List (List Bool))
    (v : List Int) : (fillBroadcast2 es masks v).length = es.length := by
  induction es generalizing masks with
  | nil => simp [fillBroadcast2]
  | cons e es ih => simp [fillBroadcast2, ih]

theorem fillBroadcast2_rows_length (es : List (List (List Int))) (masks : List (List Bool))
    (v : List Int) (L : Nat) (h : ∀ row ∈ es, row.length = L) :
    ∀ row ∈ fillBroadcast2 es masks v, row.length = L := by
  induction es generalizing masks with
  | nil => simp [fillBroadcast2]
  | cons e es ih =>
      intro row hrow
      rcases List.mem_cons.1 hrow with h1 | h1
      · subst h1
        rw [broadcastRow_length]
        exact h e (List.mem_cons_self e es)
      · exact ih _ (fun r hr => h r (List.mem_cons_of_mem e hr)) row h1

theorem inputEmbeds_length (model : Model) (ids : List (List Nat)) :
    (inputEmbeds model ids).length = ids.length := by
  simp [inputEmbeds]

theorem inputEmbeds_rows_length (model : Model) (ids : List (List Nat)) (L : Nat)
    (h : ∀ row ∈ ids, row.length = L) :
    ∀ row ∈ inputEmbeds model ids, row.length = L := by
  intro row hrow
  rcases List.mem_map.1 hrow with ⟨r, hr, hmap⟩
  subst hmap
  simpa using h r hr

theorem suppressRow_length (vs : List (List Int)) (ms : List Bool) :
    (suppressRow vs ms).length = vs.length := by
  induction vs generalizing ms with
  | nil => simp [suppressRow]
  | cons v vs ih =>
      cases ms with
      | nil => simp [suppressRow]
      | cons m tms => simp [suppressRow, ih]

theorem suppress_length (ls : List (List (List Int))) (ms : List (List Bool)) :
    (suppress ls ms).length = ls.length := by
  induction ls generalizing ms with
  | nil => simp [suppress]
  | cons l ls ih =>
      cases ms with
      | nil => simp [suppress]
      | cons m tms => simp [suppress, ih]

theorem scatterRow_length (ms : List Bool) (ss ts : List Int) :
    (scatterRow ms ss ts).length = ts.length := by
  induction ms generalizing ss ts with
  | nil => simp [scatterRow]
  | cons m tms ih =>
      cases ts with
      | nil => simp [scatterRow]
      | cons t ts => simp [scatterRow, ih]

theorem scatter2_length (ms : List (List Bool)) (ss ts : List (List Int)) :
    (scatter2 ms ss ts).length = ts.length := by
  induction ms generalizing ss ts with
  | nil => simp [scatter2]
  | cons m tms ih =>
      cases ts with
      | nil => simp [scatter2]
      | cons t ts => simp [scatter2, ih]

theorem mkOutput_length (ids : List (List Nat)) : (mkOutput ids).length = ids.length := by
  simp [mkOutput]

theorem foldl_set_length (row : List α) (f : Nat → α) (idx : List Nat) :
    (idx.foldl (fun acc j => acc.set j (f j)) row).length = row.length := by
  induction idx generalizing row with
  | nil => rfl
  | cons j idx ih =>
      rw [List.foldl_cons, ih]
      exact List.length_set row j (f j)

theorem writeRowCols_length (row ps : List α) (d : α) (idx : List Nat) :
    (writeRowCols row ps d idx).length = row.length := by
  rw [writeRowCols]
  exact foldl_set_length row (fun j => ps.getD j d) idx

theorem writeCols_length (d : α) (m : List (List α)) (idx : List Nat) (ps : List (List α)) :
    (writeCols d m idx ps).length = m.length := by
  induction m generalizing ps with
  | nil => simp [writeCols]
  | cons row rest ih => simp [writeCols, ih]

theorem clearCols_length (m : List (List Bool)) (idx : List Nat) :
    (clearCols m idx).length = m.length := by
  simp [clearCols]

theorem setCol_length (m : List (List α)) (j : Nat) (vs : List α) :
    (setCol m j vs).length = m.length := by
  induction m generalizing vs with
  | nil => simp [setCol]
  | cons row rest ih =>
      cases vs with
      | nil => simp [setCol]
      | cons v tvs => simp [setCol, ih]

/-! ### Lemmas about `forward_w_triggers` -/

theorem fwt_exact (model : Model) (b : ModelInputs)
    (htrig : countTrue b.trigger_mask = b.input_ids.length * model.relation_embeds.length) :
    forward_w_triggers model b =
      (1, .ok (model.forward
        (fill2 (inputEmbeds model b.input_ids) b.trigger_mask
          (tile b.input_ids.length model.relation_embeds)) b.attention_mask)) := by
  rw [forward_w_triggers]
  rw [if_pos]
  rw [tile_length]
  exact htrig

theorem fwt_mismatch_error (model : Model) (b : ModelInputs)
    (hmis : countTrue b.trigger_mask ≠ b.input_ids.length * model.relation_embeds.length)
    (hone : b.input_ids.length * model.relation_embeds.length ≠ 1) :
    forward_w_triggers model b = (0, .error shapeErr) := by
  rw [forward_w_triggers]
  rw [if_neg, if_neg]
  · rw [tile_length]
    exact hone
  · rw [tile_length]
    exact hmis

theorem fwt_error_cases (model : Model) (b : ModelInputs) (n : Nat) (e : String)
    (h : forward_w_triggers model b = (n, .error e)) : e = shapeErr ∧ n = 0 := by
  rw [forward_w_triggers] at h
  split at h
  · simp at h
  · split at h
    · simp at h
    · simp only [Prod.mk.injEq, Except.error.injEq] at h
      exact ⟨h.2.symm, h.1.symm⟩

theorem fwt_ok_length (model : Model) (b : ModelInputs) (n : Nat)
    (lg : List (List (List Int)))
    (hM : ∀ e a, (model.forward e a).length = e.length)
    (h : forward_w_triggers model b = (n, .ok lg)) :
    lg.length = b.input_ids.length ∧ n = 1 := by
  rw [forward_w_triggers] at h
  split at h
  · simp only [Prod.mk.injEq, Except.ok.injEq] at h
    refine ⟨?_, h.1.symm⟩
    rw [← h.2, hM, fill2_length, inputEmbeds_length]
  · split at h
    · simp only [Prod.mk.injEq, Except.ok.injEq] at h
      refine ⟨?_, h.1.symm⟩
      rw [← h.2, hM, fillBroadcast2_length, inputEmbeds_length]
    · simp at h

theorem fwt_good (model : Model) (b : ModelInputs) (B L V : Nat)
    (hids : Dims2 b.input_ids B L)
    (htrig : countTrue b.trigger_mask = B * model.relation_embeds.length)
    (hlog : LogitsGood model B L V) :
    ∃ lg, forward_w_triggers model b = (1, .ok lg) ∧ lg.length = B ∧
      ∀ row ∈ lg, row.length = L ∧ ∀ cell ∈ row, cell.length = V ∧
        ∀ x ∈ cell, negHuge < x := by
  have hlen : b.input_ids.length = B := hids.1
  have heq := fwt_exact model b (by rw [hlen]; exact htrig)
  refine ⟨_, heq, ?_⟩
  have hElen : (fill2 (inputEmbeds model b.input_ids) b.trigger_mask
      (tile b.input_ids.length model.relation_embeds)).length = B := by
    rw [fill2_length, inputEmbeds_length, hlen]
  have hErows : ∀ row ∈ fill2 (inputEmbeds model b.input_ids) b.trigger_mask
      (tile b.input_ids.length model.relation_embeds), row.length = L :=
    fill2_rows_length _ _ _ L (inputEmbeds_rows_length model b.input_ids L hids.2)
  exact hlog _ b.attention_mask hElen hErows

/-! ### Lemmas about `decodeLoop` and error provenance -/

theorem decodeLoop_error_src
    (step : ModelInputs × List (List Int) → Nat × Except String (ModelInputs × List (List Int)))
    (P : String → Prop)
    (hstep : ∀ st c e, step st = (c, .error e) → P e) :
    ∀ (k : Nat) (st : ModelInputs × List (List Int)) (n : Nat) (e : String),
      decodeLoop step k st = (n, .error e) → P e := by
  intro k
  induction k with
  | zero =>
      intro st n e h
      simp [decodeLoop] at h
  | succ k ih =>
      intro st n e h
      rw [decodeLoop] at h
      rcases hs : step st with ⟨c, r⟩
      cases r with
      | error e2 =>
          rw [hs] at h
          simp only [Prod.mk.injEq, Except.error.injEq] at h
          rw [← h.2]
          exact hstep st c e2 hs
      | ok st1 =>
          rw [hs] at h
          dsimp only at h
          rcases hd : decodeLoop step k st1 with ⟨n2, r2⟩
          rw [hd] at h
          simp only [Prod.mk.injEq] at h
          rw [h.2] at hd
          exact ih st1 n2 e hd

theorem monotonicStep_error (model : Model) (st : ModelInputs × List (List Int))
    (c : Nat) (e : String) (h : monotonicStep model st = (c, .error e)) :
    e = shapeErr ∨ e = idxErr := by
  rw [monotonicStep] at h
  rcases hf : forward_w_triggers model st.1 with ⟨n, r⟩
  cases r with
  | error e2 =>
      rw [hf] at h
      simp only [Prod.mk.injEq, Except.error.injEq] at h
      exact Or.inl (h.2 ▸ (fwt_error_cases model st.1 n e2 hf).1)
  | ok lg =>
      rw [hf] at h
      cases hcol : firstTrueCol st.1.predict_mask with
      | none =>
          rw [hcol] at h
          simp only [Prod.mk.injEq, Except.error.injEq] at h
          exact Or.inr h.2.symm
      | some j =>
          rw [hcol] at h
          simp at h

theorem iterativeStep_error (model : Model) (st : ModelInputs × List (List Int))
    (c : Nat) (e : String) (h : iterativeStep model st = (c, .error e)) :
    e = shapeErr := by
  rw [iterativeStep] at h
  rcases hf : forward_w_triggers model st.1 with ⟨n, r⟩
  cases r with
  | error e2 =>
      rw [hf] at h
      simp only [Prod.mk.injEq, Except.error.injEq] at h
      exact h.2 ▸ (fwt_error_cases model st.1 n e2 hf).1
  | ok lg =>
      rw [hf] at h
      simp at h

/-! ### Counting lemmas -/

theorem countTrue_per_row (m : List (List Bool)) (T : Nat)
    (h : ∀ row ∈ m, row.countP id = T) : countTrue m = m.length * T := by
  induction m with
  | nil => simp [countTrue]
  | cons r rs ih =>
      have hr := h r (List.mem_cons_self r rs)
      have hrs := ih fun row hrow => h row (List.mem_cons_of_mem r hrow)
      simp only [countTrue, List.map_cons, List.sum_cons] at hrs ⊢
      rw [hr, hrs, List.length_cons, Nat.succ_mul, Nat.add_comm]

theorem countP_le_of_pointwise (xs ys : List Bool) (hl : xs.length = ys.length)
    (h : ∀ i, xs.getD i false = true → ys.getD i false = true) :
    xs.countP id ≤ ys.countP id := by
  induction xs generalizing ys with
  | nil => simp
  | cons x txs ih =>
      cases ys with
      | nil => simp at hl
      | cons y tys =>
          have hhead : (if id x = true then 1 else 0) ≤ (if id y = true then 1 else 0) := by
        
            by_cases hx : x = true
            · have := h 0 (by simpa using hx)
              simp only [List.getD_cons_zero] at this
              simp [hx, this]
            · simp [hx]
          have htail := ih tys (by simpa using hl)
            (fun i hi => by
              have := h (i + 1) (by simpa [List.getD_cons_succ] using hi)
              simpa [List.getD_cons_succ] using this)
          simp only [List.countP_cons]
          omega

theorem countP_lt_of_pointwise (xs ys : List Bool) (j : Nat) (hl : xs.length = ys.length)
    (h : ∀ i, xs.getD i false = true → ys.getD i false = true)
    (hxj : xs.getD j false = false) (hyj : ys.getD j false = true) :
    xs.countP id < ys.countP id := by
  induction xs generalizing ys j with
  | nil =>
      cases ys with
      | nil => simp at hyj
      | cons y tys => simp at hl
  | cons x txs ih =>
      cases ys with
      | nil => simp at hl
      | cons y tys =>
          cases j with
          | zero =>
              simp only [List.getD_cons_zero] at hxj hyj
              subst hxj
              subst hyj
              have htail := countP_le_of_pointwise txs tys (by simpa using hl)
                (fun i hi => by
                  have := h (i + 1) (by simpa [List.getD_cons_succ] using hi)
                  simpa [List.getD_cons_succ] using this)
              simp only [List.countP_cons]
              simp only [id_eq]
              simp
              omega
          | succ j =>
              simp only [List.getD_cons_succ] at hxj hyj
              have htail := ih tys j (by simpa using hl)
                (fun i hi => by
                  have := h (i + 1) (by simpa [List.getD_cons_succ] using hi)
                  simpa [List.getD_cons_succ] using this) hxj hyj
              have hhead : (if id x = true then 1 else 0) ≤ (if id y = true then 1 else 0) := by
                by_cases hx : x = true
                · have := h 0 (by simpa using hx)
                  simp only [List.getD_cons_zero] at this
                  simp [hx, this]
                · simp [hx]
              simp only [List.countP_cons]
              omega

theorem foldl_clear_length (m : List Bool) (idx : List Nat) :
    (idx.foldl (fun acc j => acc.set j false) m).length = m.length := by
  induction idx generalizing m with
  | nil => rfl
  | cons j idx ih =>
      rw [List.foldl_cons, ih]
      exact List.length_set m j false

theorem foldl_clear_getD (m : List Bool) (idx : List Nat) (j : Nat) :
    (idx.foldl (fun acc i => acc.set i false) m).getD j false =
      if j ∈ idx then false else m.getD j false := by
  induction idx generalizing m with
  | nil => simp
  | cons i idx ih =>
      rw [List.foldl_cons, ih]
      by_cases hj : j ∈ idx
      · rw [if_pos hj, if_pos (List.mem_cons_of_mem i hj)]
      · rw [if_neg hj]
        by_cases hij : i = j
        · subst hij
          rw [if_pos (List.mem_cons_self i idx)]
          exact getD_set_false m i
        · rw [if_neg (by
            intro hmem
            rcases List.mem_cons.1 hmem with h1 | h1
            · exact hij h1.symm
            · exact hj h1)]
          exact getD_set_ne m i j false false hij

/-! ### Pointwise lemmas for the parallel strategy and the postcondition -/

theorem headI_int_getD (ss : List Int) : ss.headI = ss.getD 0 0 := by
  cases ss <;> rfl

theorem headI_list_getD (ss : List (List α)) : ss.headI = ss.getD 0 [] := by
  cases ss <;> rfl

theorem scatterRow_getD (ms : List Bool) (ss ts : List Int) (c : Nat)
    (hlen : ms.length = ts.length) (hc : c < ts.length) :
    (scatterRow ms ss ts).getD c 0 =
      if ms.getD c false then ss.getD c 0 else ts.getD c 0 := by
  induction ms generalizing ss ts c with
  | nil => simp at hlen; omega
  | cons m tms ih =>
      cases ts with
      | nil => simp at hc
      | cons t tts =>
          cases c with
          | zero =>
              simp only [scatterRow, List.getD_cons_zero]
              by_cases hm : m = true
              · rw [if_pos hm, if_pos hm, headI_int_getD]
              · rw [if_neg hm, if_neg hm]
          | succ c =>
              have hlen2 : tms.length = tts.length := by simpa using hlen
              have hc2 : c < tts.length := by simpa using hc
              have := ih ss.tail tts c hlen2 hc2
              simp only [scatterRow, List.getD_cons_succ]
              rw [this, tail_getD]

theorem scatterRow_zero (ms : List Bool) (ss ts : List Int)
    (h0 : ms.countP id = 0) (hlen : ms.length = ts.length) :
    scatterRow ms ss ts = ts := by
  induction ms generalizing ss ts with
  | nil =>
      cases ts with
      | nil => rfl
      | cons t tts => simp at hlen
  | cons m tms ih =>
      cases ts with
      | nil => simp at hlen
      | cons t tts =>
          have hm : m = false := by
            rcases List.countP_eq_zero.1 h0 m (List.mem_cons_self m tms) with h
            simpa using h
          subst hm
          simp only [scatterRow, if_neg Bool.false_ne_true]
          rw [ih ss.tail tts (by simpa using h0) (by simpa using hlen)]

theorem forall₂_length_of_dims (a : List (List α)) (b : List (List β)) (B L : Nat)
    (ha : Dims2 a B L) (hb : Dims2 b B L) :
    List.Forall₂ (fun (x : List α) (y : List β) => x.length = y.length) a b := by
  rw [List.forall₂_iff_get]
  refine ⟨by rw [ha.1, hb.1], ?_⟩
  intro i h1 h2
  rw [ha.2 _ (List.get_mem a i h1), hb.2 _ (List.get_mem b i h2)]

theorem scatter2_zero (ms : List (List Bool)) (ss ts : List (List Int))
    (h0 : ∀ row ∈ ms, row.countP id = 0)
    (hlen : List.Forall₂ (fun (m : List Bool) (t : List Int) => m.length = t.length) ms ts) :
    scatter2 ms ss ts = ts := by
  induction hlen generalizing ss with
  | nil => rfl
  | cons hhead htail ih =>
      rename_i m t tms tts
      simp only [scatter2]
      rw [scatterRow_zero _ _ _ (h0 m (List.mem_cons_self m tms)) hhead,
        ih ss.tail fun row hrow => h0 row (List.mem_cons_of_mem m hrow)]

theorem scatter2_getD_row (ms : List (List Bool)) (ss ts : List (List Int)) (r : Nat)
    (hlen : ms.length = ts.length) (hr : r < ts.length) :
    (scatter2 ms ss ts).getD r [] =
      scatterRow (ms.getD r []) (ss.getD r []) (ts.getD r []) := by
  induction ms generalizing ss ts r with
  | nil => simp at hlen; omega
  | cons m tms ih =>
      cases ts with
      | nil => simp at hr
      | cons t tts =>
          cases r with
          | zero =>
              simp only [scatter2, List.getD_cons_zero]
              rw [headI_list_getD]
          | succ r =>
              have hlen2 : tms.length = tts.length := by simpa using hlen
              have hr2 : r < tts.length := by simpa using hr
              have := ih ss.tail tts r hlen2 hr2
              simp only [scatter2, List.getD_cons_succ]
              rw [this, tail_getD]

theorem mkOutput_rows (ids : List (List Nat)) (B L : Nat) (h : Dims2 ids B L) :
    Dims2 (mkOutput ids) B L := by
  constructor
  · rw [mkOutput_length, h.1]
  · intro row hrow
    rcases List.mem_map.1 hrow with ⟨r, hr, hmap⟩
    subst hmap
    simpa using h.2 r hr

theorem mkOutput_mem (ids : List (List Nat)) (row : List Int) (hrow : row ∈ mkOutput ids) :
    ∀ v ∈ row, v = ignoreIndex := by
  rcases List.mem_map.1 hrow with ⟨r, _, hmap⟩
  subst hmap
  intro v hv
  rcases List.mem_map.1 hv with ⟨x, _, hx⟩
  exact hx.symm

theorem postRow_scatter (ms : List Bool) (ss ts : List Int)
    (hlen : ms.length = ts.length)
    (hts : ∀ v ∈ ts, v = ignoreIndex) (hss : ∀ v ∈ ss, 0 ≤ v) :
    postRow ms (scatterRow ms ss ts) = true := by
  induction ms generalizing ss ts with
  | nil =>
      cases ts with
      | nil => rfl
      | cons t tts => simp at hlen
  | cons m tms ih =>
      cases ts with
      | nil => simp at hlen
      | cons t tts =>
          have htail := ih ss.tail tts (by simpa using hlen)
            (fun v hv => hts v (List.mem_cons_of_mem t hv))
            (fun v hv => hss v (List.mem_of_mem_tail hv))
          by_cases hm : m = true
          · subst hm
            have hhead : 0 ≤ ss.headI := by
              cases ss with
              | nil => exact le_refl 0
              | cons s tss => exact hss s (List.mem_cons_self s tss)
            simp [scatterRow, postRow, htail, hhead]
          · have hm2 : m = false := by simpa using hm
            subst hm2
            have hhead : t = ignoreIndex := hts t (List.mem_cons_self t tts)
            simp [scatterRow, postRow, htail, hhead]

theorem postcondHolds_of_forall₂ (ms : List (List Bool)) (os : List (List Int))
    (h : List.Forall₂ (fun (m : List Bool) (o : List Int) => postRow m o = true) ms os) :
    postcondHolds ms os = true := by
  induction h with
  | nil => rfl
  | cons hhead htail ih => simp [postcondHolds, hhead, ih]

theorem postRow_of_pointwise (ms : List Bool) (os : List Int)
    (hl : ms.length = os.length)
    (h : ∀ j, j < ms.length →
      (ms.getD j false = true → 0 ≤ os.getD j 0) ∧
      (ms.getD j false = false → os.getD j 0 = ignoreIndex)) :
    postRow ms os = true := by
  induction ms generalizing os with
  | nil =>
      cases os with
      | nil => rfl
      | cons o tos => simp at hl
  | cons m tms ih =>
      cases os with
      | nil => simp at hl
      | cons o tos =>
          have hhead := h 0 (by simp)
          simp only [List.getD_cons_zero] at hhead
          have htail := ih tos (by simpa using hl)
            (fun j hj => by
              have := h (j + 1) (by simpa using hj)
              simpa [List.getD_cons_succ] using this)
          by_cases hm : m = true
          · have := hhead.1 hm
            simp [postRow, hm, this, htail]
          · have hm2 : m = false := by simpa using hm
            have := hhead.2 hm2
            simp [postRow, hm2, this, htail]

/-! ### Dispatch lemmas for `decode` -/

theorem decode_parallel_def (model : Model) (b : ModelInputs) :
    decode model b "parallel" =
      (match forward_w_triggers model b with
      | (n, .error e) => (n, .error e)
      | (n, .ok logits) =>
          (n, .ok (b, scatter2 b.predict_mask
            (logits.map fun row => row.map fun v => Int.ofNat (argmaxIdx v))
            (mkOutput b.input_ids)))) := by
  rw [decode]
  rw [if_pos (by decide : ("parallel" : String) ∈ strategies)]
  rw [if_pos rfl]

theorem decode_monotonic_def (model : Model) (b : ModelInputs) :
    decode model b "monotonic" =
      decodeLoop (monotonicStep model) (countTrue b.predict_mask)
        (b, mkOutput b.input_ids) := by
  rw [decode]
  rw [if_pos (by decide : ("monotonic" : String) ∈ strategies)]
  rw [if_neg (by decide : ¬("monotonic" : String) = "parallel")]
  rw [if_pos rfl]

theorem decode_iterative_def (model : Model) (b : ModelInputs) :
    decode model b "iterative" =
      decodeLoop (iterativeStep model) (countTrue b.predict_mask)
        (b, mkOutput b.input_ids) := by
  rw [decode]
  rw [if_pos (by decide : ("iterative" : String) ∈ strategies)]
  rw [if_neg (by decide : ¬("iterative" : String) = "parallel")]
  rw [if_neg (by decide : ¬("iterative" : String) = "monotonic")]

theorem decode_assert (model : Model) (b : ModelInputs) (s : String)
    (hs : s ∉ strategies) : decode model b s = (0, .error assertErr) := by
  rw [decode]
  rw [if_neg hs]

theorem parallel_run (model : Model) (b : ModelInputs)
    (htrig : countTrue b.trigger_mask = b.input_ids.length * model.relation_embeds.length) :
    ∃ lg, forward_w_triggers model b = (1, .ok lg) ∧
      decode model b "parallel" = (1, .ok (b, scatter2 b.predict_mask
        (lg.map fun row => row.map fun v => Int.ofNat (argmaxIdx v))
        (mkOutput b.input_ids))) := by
  refine ⟨_, fwt_exact model b htrig, ?_⟩
  rw [decode_parallel_def, fwt_exact model b htrig]

theorem postcond_scatter2 (ms : List (List Bool)) (ss ts : List (List Int))
    (hlen : List.Forall₂ (fun (m : List Bool) (t : List Int) => m.length = t.length) ms ts)
    (hts : ∀ row ∈ ts, ∀ v ∈ row, v = ignoreIndex)
    (hss : ∀ row ∈ ss, ∀ v ∈ row, 0 ≤ v) :
    postcondHolds ms (scatter2 ms ss ts) = true := by
  induction hlen generalizing ss with
  | nil => rfl
  | cons hhead htail ih =>
      rename_i m t tms tts
      have hh : postRow m (scatterRow m ss.headI t) = true := by
        apply postRow_scatter m ss.headI t hhead (hts t (List.mem_cons_self t tts))
        intro v hv
        cases ss with
        | nil =>
            rw [show (List.headI ([] : List (List Int))) = ([] : List Int) from rfl] at hv
            simp at hv
        | cons s tss => exact hss s (List.mem_cons_self s tss) v hv
      simp only [scatter2, postcondHolds, hh, Bool.true_and]
      exact ih ss.tail (fun row hrow => hts row (List.mem_cons_of_mem t hrow))
        (fun row hrow => hss row (List.mem_of_mem_tail hrow))

theorem preds_nonneg (lg : List (List (List Int))) :
    ∀ row ∈ (lg.map fun row => row.map fun v => Int.ofNat (argmaxIdx v)),
      ∀ v ∈ row, 0 ≤ v := by
  intro row hrow v hv
  rcases List.mem_map.1 hrow with ⟨r, _, hmap⟩
  subst hmap
  rcases List.mem_map.1 hv with ⟨x, _, hx⟩
  subst hx
  exact Int.ofNat_nonneg _

theorem rows_countP_zero (m : List (List Bool)) (h : countTrue m = 0) :
    ∀ row ∈ m, row.countP id = 0 := by
  intro row hrow
  have := List.sum_eq_zero_iff.1 h
  exact this _ (List.mem_map.2 ⟨row, hrow, rfl⟩)

/-! ### Single-example batches: the janky batch indexing agrees with the
specification description -/

theorem argmax2_single (row : List Int) : argmax2 [row] = some (0, argmaxIdx row) := by
  simp [argmax2, argmax2Aux]

theorem preds_getD_eq (row : List (List Int)) (j : Nat) :
    (row.map argmaxIdx).getD j 0 = argmaxIdx (row.getD j []) := by
  by_cases hj : j < row.length
  · exact getD_map_lt argmaxIdx row j 0 [] hj
  · rw [List.getD_eq_default _ _ (by simpa using Nat.le_of_not_lt hj),
      List.getD_eq_default _ _ (Nat.le_of_not_lt hj)]
    rfl

theorem predsI_getD_eq (row : List (List Int)) (j : Nat) :
    ((row.map argmaxIdx).map fun n => Int.ofNat n).getD j 0 =
      Int.ofNat (argmaxIdx (row.getD j [])) := by
  by_cases hj : j < row.length
  · rw [getD_map_lt _ _ j 0 0 (by simpa using hj), getD_map_lt argmaxIdx row j 0 [] hj]
  · rw [List.getD_eq_default _ _ (by simpa using Nat.le_of_not_lt hj),
      List.getD_eq_default _ _ (Nat.le_of_not_lt hj)]
    rfl

theorem mono_step_single (model : Model)
    (hM : ∀ e a, (model.forward e a).length = e.length)
    (ids : List Nat) (tm pm : List Bool) (am : List Nat) (out : List Int) :
    monotonicStep model (⟨[ids], [tm], [pm], [am]⟩, [out]) =
      monotonicSpecStep model (⟨[ids], [tm], [pm], [am]⟩, [out]) := by
  rw [monotonicStep, monotonicSpecStep]
  rcases hf : forward_w_triggers model ⟨[ids], [tm], [pm], [am]⟩ with ⟨n, r⟩
  cases r with
  | error e => rfl
  | ok lg =>
      obtain ⟨l0, hl0⟩ : ∃ l0, lg = [l0] := by
        rcases fwt_ok_length model _ n lg hM hf with ⟨hlen, _⟩
        exact List.length_eq_one.1 (by simpa using hlen)
      subst hl0
      by_cases hany : pm.any id
      · rw [show firstTrueCol [pm] = some (pm.findIdx id) from by
            simp [firstTrueCol, hany],
          show firstTruePos [pm] = some (0, pm.findIdx id) from by
            simp [firstTruePos, firstTruePosAux, hany]]
        simp [setCol, setColFalse, set2, List.getD_cons_zero]
      · rw [show firstTrueCol [pm] = none from by simp [firstTrueCol, hany],
          show firstTruePos [pm] = none from by
            simp [firstTruePos, firstTruePosAux, hany]]

theorem iter_step_single (model : Model)
    (hM : ∀ e a, (model.forward e a).length = e.length)
    (ids : List Nat) (tm pm : List Bool) (am : List Nat) (out : List Int) :
    iterativeStep model (⟨[ids], [tm], [pm], [am]⟩, [out]) =
      iterativeSpecStep model (⟨[ids], [tm], [pm], [am]⟩, [out]) := by
  rw [iterativeStep, iterativeSpecStep]
  rcases hf : forward_w_triggers model ⟨[ids], [tm], [pm], [am]⟩ with ⟨n, r⟩
  cases r with
  | error e => rfl
  | ok lg =>
      obtain ⟨l0, hl0⟩ : ∃ l0, lg = [l0] := by
        rcases fwt_ok_length model _ n lg hM hf with ⟨hlen, _⟩
        exact List.length_eq_one.1 (by simpa using hlen)
      subst hl0
      dsimp only
      rw [show suppress [l0] [pm] = [suppressRow l0 pm] from by simp [suppress]]
      rw [show ([suppressRow l0 pm].map fun row => row.map maxVal) =
          [(suppressRow l0 pm).map maxVal] from by simp]
      rw [argmax2_single]
      simp only [List.map_cons, List.map_nil]
      rw [show writeCols 0 [ids] [argmaxIdx ((suppressRow l0 pm).map maxVal)]
            [(suppressRow l0 pm).map argmaxIdx] =
          [ids.set (argmaxIdx ((suppressRow l0 pm).map maxVal))
            (((suppressRow l0 pm).map argmaxIdx).getD
              (argmaxIdx ((suppressRow l0 pm).map maxVal)) 0)] from by
        simp [writeCols, writeRowCols]]
      rw [show clearCols [pm] [argmaxIdx ((suppressRow l0 pm).map maxVal)] =
          [pm.set (argmaxIdx ((suppressRow l0 pm).map maxVal)) false] from by
        simp [clearCols]]
      rw [show writeCols 0 [out] [argmaxIdx ((suppressRow l0 pm).map maxVal)]
            [((suppressRow l0 pm).map argmaxIdx).map fun n => Int.ofNat n] =
          [out.set (argmaxIdx ((suppressRow l0 pm).map maxVal))
            ((((suppressRow l0 pm).map argmaxIdx).map fun n => Int.ofNat n).getD
              (argmaxIdx ((suppressRow l0 pm).map maxVal)) 0)] from by
        simp [writeCols, writeRowCols]]
      rw [preds_getD_eq, predsI_getD_eq]
      simp [set2, List.getD_cons_zero]

theorem setCol_single (a : List α) (j : Nat) (vs : List α) :
    ∃ b, setCol [a] j vs = [b] := by
  cases vs with
  | nil => exact ⟨a, rfl⟩
  | cons v tvs => exact ⟨a.set j v, rfl⟩


theorem set2_single (a : List α) (r c : Nat) (v : α) :
    ∃ b, set2 [a] r c v = [b] := by
  cases r with
  | zero => exact ⟨a.set c v, by simp [set2]⟩
  | succ r => exact ⟨a, by simp [set2]⟩

theorem mono_spec_step_shape (model : Model) (ids : List Nat) (tm pm : List Bool)
    (am : List Nat) (out : List Int) (c : Nat) (st1 : ModelInputs × List (List Int))
    (h : monotonicSpecStep model (⟨[ids], [tm], [pm], [am]⟩, [out]) = (c, .ok st1)) :
    ∃ ids2 pm2 out2, st1 = (⟨[ids2], [tm], [pm2], [am]⟩, [out2]) := by
  rw [monotonicSpecStep] at h
  rcases hf : forward_w_triggers model ⟨[ids], [tm], [pm], [am]⟩ with ⟨n, r⟩
  rw [hf] at h
  cases r with
  | error e => simp at h
  | ok lg =>
      cases hpos : firstTruePos [pm] with
      | none => rw [hpos] at h; simp at h
      | some rc =>
          rw [hpos] at h
          dsimp only at h
          simp only [Prod.mk.injEq] at h
          obtain ⟨i2, hi2⟩ := set2_single ids rc.1 rc.2 (argmaxIdx ((lg.getD rc.1 []).getD rc.2 []))
          obtain ⟨p2, hp2⟩ := set2_single pm rc.1 rc.2 false
          obtain ⟨o2, ho2⟩ :=
            set2_single out rc.1 rc.2 (Int.ofNat (argmaxIdx ((lg.getD rc.1 []).getD rc.2 [])))
          refine ⟨i2, p2, o2, ?_⟩
          have hst := Except.ok.inj h.2
          rw [← hst, hi2, hp2, ho2]

theorem iter_spec_step_shape (model : Model) (ids : List Nat) (tm pm : List Bool)
    (am : List Nat) (out : List Int) (c : Nat) (st1 : ModelInputs × List (List Int))
    (h : iterativeSpecStep model (⟨[ids], [tm], [pm], [am]⟩, [out]) = (c, .ok st1)) :
    ∃ ids2 pm2 out2, st1 = (⟨[ids2], [tm], [pm2], [am]⟩, [out2]) := by
  rw [iterativeSpecStep] at h
  rcases hf : forward_w_triggers model ⟨[ids], [tm], [pm], [am]⟩ with ⟨n, r⟩
  rw [hf] at h
  cases r with
  | error e => simp at h
  | ok lg =>
      dsimp only at h
      cases hpos : argmax2 ((suppress lg [pm]).map fun row => row.map maxVal) with
      | none => rw [hpos] at h; simp at h
      | some rc =>
          rw [hpos] at h
          dsimp only at h
          simp only [Prod.mk.injEq] at h
          obtain ⟨i2, hi2⟩ := set2_single ids rc.1 rc.2
            (argmaxIdx (((suppress lg [pm]).getD rc.1 []).getD rc.2 []))
          obtain ⟨p2, hp2⟩ := set2_single pm rc.1 rc.2 false
          obtain ⟨o2, ho2⟩ := set2_single out rc.1 rc.2
            (Int.ofNat (argmaxIdx (((suppress lg [pm]).getD rc.1 []).getD rc.2 [])))
          refine ⟨i2, p2, o2, ?_⟩
          have hst := Except.ok.inj h.2
          rw [← hst, hi2, hp2, ho2]

theorem mono_loop_single (model : Model)
    (hM : ∀ e a, (model.forward e a).length = e.length) :
    ∀ (n : Nat) (ids : List Nat) (tm pm : List Bool) (am : List Nat) (out : List Int),
      decodeLoop (monotonicStep model) n (⟨[ids], [tm], [pm], [am]⟩, [out]) =
        decodeLoop (monotonicSpecStep model) n (⟨[ids], [tm], [pm], [am]⟩, [out]) := by
  intro n
  induction n with
  | zero => intro ids tm pm am out; rfl
  | succ n ih =>
      intro ids tm pm am out
      rw [decodeLoop, decodeLoop, mono_step_single model hM ids tm pm am out]
      rcases hs : monotonicSpecStep model (⟨[ids], [tm], [pm], [am]⟩, [out]) with ⟨c, r⟩
      cases r with
      | error e => rfl
      | ok st1 =>
          obtain ⟨ids2, pm2, out2, hform⟩ :=
            mono_spec_step_shape model ids tm pm am out c st1 hs
          subst hform
          dsimp only
          rw [ih ids2 tm pm2 am out2]

theorem iter_loop_single (model : Model)
    (hM : ∀ e a, (model.forward e a).length = e.length) :
    ∀ (n : Nat) (ids : List Nat) (tm pm : List Bool) (am : List Nat) (out : List Int),
      decodeLoop (iterativeStep model) n (⟨[ids], [tm], [pm], [am]⟩, [out]) =
        decodeLoop (iterativeSpecStep model) n (⟨[ids], [tm], [pm], [am]⟩, [out]) := by
  intro n
  induction n with
  | zero => intro ids tm pm am out; rfl
  | succ n ih =>
      intro ids tm pm am out
      rw [decodeLoop, decodeLoop, iter_step_single model hM ids tm pm am out]
      rcases hs : iterativeSpecStep model (⟨[ids], [tm], [pm], [am]⟩, [out]) with ⟨c, r⟩
      cases r with
      | error e => rfl
      | ok st1 =>
          obtain ⟨ids2, pm2, out2, hform⟩ :=
            iter_spec_step_shape model ids tm pm am out c st1 hs
          subst hform
          dsimp only
          rw [ih ids2 tm pm2 am out2]

/-! ### Single-example batches: postcondition machinery -/

theorem fwt_single_good (model : Model) (L V : Nat)
    (ids : List Nat) (tm pm : List Bool) (am : List Nat)
    (hids : ids.length = L)
    (htm : tm.countP id = model.relation_embeds.length)
    (hlog : LogitsGood model 1 L V) :
    ∃ l0, forward_w_triggers model ⟨[ids], [tm], [pm], [am]⟩ = (1, .ok [l0]) ∧
      l0.length = L ∧ ∀ cell ∈ l0, cell.length = V ∧ ∀ x ∈ cell, negHuge < x := by
  have hdims : Dims2 ([ids] : List (List Nat)) 1 L := by
    constructor
    · rfl
    · intro row hrow
      rcases List.mem_singleton.1 hrow with h
      rw [h, hids]
  have htrig : countTrue ([tm] : List (List Bool)) = 1 * model.relation_embeds.length := by
    simp [countTrue, htm]
  obtain ⟨lg, heq, hlen, hrows⟩ := fwt_good model ⟨[ids], [tm], [pm], [am]⟩ 1 L V hdims htrig hlog
  obtain ⟨l0, hl0⟩ := List.length_eq_one.1 hlen
  subst hl0
  have hr := hrows l0 (List.mem_singleton.2 rfl)
  exact ⟨l0, heq, hr.1, hr.2⟩

theorem findIdx_true_facts (pm : List Bool) (hpos : 0 < pm.countP id) :
    pm.findIdx id < pm.length ∧ pm.getD (pm.findIdx id) false = true ∧ pm.any id = true := by
  obtain ⟨x, hx, hpx⟩ := List.countP_pos_iff.1 hpos
  have hex : ∃ x ∈ pm, id x = true := ⟨x, hx, hpx⟩
  have hlt : pm.findIdx id < pm.length := List.findIdx_lt_length_of_exists hex
  refine ⟨hlt, ?_, ?_⟩
  · rw [List.getD_eq_getElem _ _ hlt]
    have h2 := @List.findIdx_getElem _ id pm hlt
    simpa using h2
  · exact List.any_eq_true.2 ⟨x, hx, hpx⟩

theorem mono_step_single_run (model : Model) (ids : List Nat) (tm pm : List Bool)
    (am : List Nat) (out : List Int) (l0 : List (List Int))
    (hfwt : forward_w_triggers model ⟨[ids], [tm], [pm], [am]⟩ = (1, .ok [l0]))
    (hany : pm.any id = true) :
    monotonicStep model (⟨[ids], [tm], [pm], [am]⟩, [out]) =
      (1, .ok (⟨[ids.set (pm.findIdx id) (argmaxIdx (l0.getD (pm.findIdx id) []))], [tm],
        [pm.set (pm.findIdx id) false], [am]⟩,
        [out.set (pm.findIdx id) (Int.ofNat (argmaxIdx (l0.getD (pm.findIdx id) [])))])) := by
  rw [monotonicStep, hfwt]
  dsimp only
  rw [show firstTrueCol [pm] = some (pm.findIdx id) from by simp [firstTrueCol, hany]]
  simp [setCol, setColFalse]

theorem suppressRow_getD (l0 : List (List Int)) (pm : List Bool) (j : Nat)
    (hlen : pm.length = l0.length) (hj : j < l0.length) :
    (suppressRow l0 pm).getD j [] =
      if pm.getD j false then l0.getD j [] else (l0.getD j []).map fun _ => negHuge := by
  induction l0 generalizing pm j with
  | nil => simp at hj
  | cons v vs ih =>
      cases pm with
      | nil => simp at hlen
      | cons m tms =>
          cases j with
          | zero =>
              simp only [suppressRow, List.getD_cons_zero]
          | succ j =>
              simp only [suppressRow, List.getD_cons_succ]
              exact ih tms j (by simpa using hlen) (by simpa using hj)

theorem maxVal_map_const (v : List Int) : maxVal (v.map fun _ => negHuge) = negHuge := by
  cases v with
  | nil => rfl
  | cons x xs =>
      apply maxVal_const
      · simp
      · intro y hy
        rcases List.mem_map.1 hy with ⟨_, _, hmap⟩
        exact hmap.symm

theorem iter_pick_true (l0 : List (List Int)) (pm : List Bool) (V : Nat)
    (hlen : pm.length = l0.length)
    (hcells : ∀ cell ∈ l0, cell.length = V ∧ ∀ x ∈ cell, negHuge < x)
    (hV : 1 ≤ V) (hpos : 0 < pm.countP id) :
    pm.getD (argmaxIdx ((suppressRow l0 pm).map maxVal)) false = true ∧
      argmaxIdx ((suppressRow l0 pm).map maxVal) < pm.length := by
  obtain ⟨hjt_lt, hjt_true, _⟩ := findIdx_true_facts pm hpos
  set jt := pm.findIdx id with hjt
  set top := (suppressRow l0 pm).map maxVal with htop
  have htoplen : top.length = l0.length := by
    rw [htop, List.length_map, suppressRow_length]
  have htopne : top ≠ [] := by
    intro hnil
    rw [hnil] at htoplen
    simp only [List.length_nil] at htoplen
    omega
  -- the top score at a masked-true position exceeds negHuge
  have hjt_lt2 : jt < l0.length := by omega
  have hcell_mem : l0.getD jt [] ∈ l0 := by
    rw [List.getD_eq_getElem _ _ hjt_lt2]
    exact List.getElem_mem hjt_lt2
  have hcell := hcells _ hcell_mem
  have hcell_ne : l0.getD jt [] ≠ [] := by
    intro hnil
    rw [hnil] at hcell
    simp only [List.length_nil] at hcell
    omega
  have htop_jt : top.getD jt 0 = maxVal (l0.getD jt []) := by
    rw [htop, getD_map_lt maxVal _ jt 0 [] (by rw [suppressRow_length]; exact hjt_lt2),
      suppressRow_getD l0 pm jt hlen hjt_lt2, if_pos hjt_true]
  have htop_jt_big : negHuge < top.getD jt 0 := by
    rw [htop_jt]
    exact hcell.2 _ (maxVal_mem _ hcell_ne)
  set j := argmaxIdx top with hj
  have hj_lt : j < top.length := argmaxIdx_lt_length top htopne
  have hj_lt2 : j < l0.length := by omega
  have hval : top.getD j 0 = maxVal top := getD_argmaxIdx top htopne
  have hjt_le : top.getD jt 0 ≤ maxVal top := by
    apply le_maxVal_of_mem
    rw [List.getD_eq_getElem _ _ (by omega : jt < top.length)]
    exact List.getElem_mem _
  have hbig : negHuge < top.getD j 0 := by
    rw [hval]
    exact lt_of_lt_of_le htop_jt_big hjt_le
  constructor
  · by_contra hfalse
    have hfalse2 : pm.getD j false = false := by
      cases hpm : pm.getD j false
      · rfl
      · exact absurd hpm hfalse
    have : top.getD j 0 = negHuge := by
      rw [htop, getD_map_lt maxVal _ j 0 [] (by rw [suppressRow_length]; exact hj_lt2),
        suppressRow_getD l0 pm j hlen hj_lt2, if_neg (by rw [hfalse2]; exact Bool.false_ne_true)]
      exact maxVal_map_const _
    omega
  · omega

theorem iter_step_single_run (model : Model) (ids : List Nat) (tm pm : List Bool)
    (am : List Nat) (out : List Int) (l0 : List (List Int))
    (hfwt : forward_w_triggers model ⟨[ids], [tm], [pm], [am]⟩ = (1, .ok [l0])) :
    iterativeStep model (⟨[ids], [tm], [pm], [am]⟩, [out]) =
      (1, .ok (⟨[ids.set (argmaxIdx ((suppressRow l0 pm).map maxVal))
          (argmaxIdx ((suppressRow l0 pm).getD
            (argmaxIdx ((suppressRow l0 pm).map maxVal)) []))], [tm],
        [pm.set (argmaxIdx ((suppressRow l0 pm).map maxVal)) false], [am]⟩,
        [out.set (argmaxIdx ((suppressRow l0 pm).map maxVal))
          (Int.ofNat (argmaxIdx ((suppressRow l0 pm).getD
            (argmaxIdx ((suppressRow l0 pm).map maxVal)) [])))])) := by
  rw [iterativeStep, hfwt]
  dsimp only
  rw [show suppress [l0] [pm] = [suppressRow l0 pm] from by simp [suppress]]
  simp only [List.map_cons, List.map_nil]
  rw [show writeCols 0 [ids] [argmaxIdx ((suppressRow l0 pm).map maxVal)]
        [(suppressRow l0 pm).map argmaxIdx] =
      [ids.set (argmaxIdx ((suppressRow l0 pm).map maxVal))
        (((suppressRow l0 pm).map argmaxIdx).getD
          (argmaxIdx ((suppressRow l0 pm).map maxVal)) 0)] from by
    simp [writeCols, writeRowCols]]
  rw [show clearCols [pm] [argmaxIdx ((suppressRow l0 pm).map maxVal)] =
      [pm.set (argmaxIdx ((suppressRow l0 pm).map maxVal)) false] from by
    simp [clearCols]]
  rw [show writeCols 0 [out] [argmaxIdx ((suppressRow l0 pm).map maxVal)]
        [((suppressRow l0 pm).map argmaxIdx).map fun n => Int.ofNat n] =
      [out.set (argmaxIdx ((suppressRow l0 pm).map maxVal))
        ((((suppressRow l0 pm).map argmaxIdx).map fun n => Int.ofNat n).getD
          (argmaxIdx ((suppressRow l0 pm).map maxVal)) 0)] from by
    simp [writeCols, writeRowCols]]
  rw [preds_getD_eq, predsI_getD_eq]

theorem mono_single_invariant (model : Model) (L V : Nat)
    (tm : List Bool) (am : List Nat)
    (htm : tm.countP id = model.relation_embeds.length)
    (hlog : LogitsGood model 1 L V) :
    ∀ (n : Nat) (ids : List Nat) (pm : List Bool) (out : List Int),
      pm.countP id = n → pm.length = L → ids.length = L → out.length = L →
      ∃ c ids2 pm2 out2,
        decodeLoop (monotonicStep model) n (⟨[ids], [tm], [pm], [am]⟩, [out]) =
          (c, .ok (⟨[ids2], [tm], [pm2], [am]⟩, [out2])) ∧
        out2.length = L ∧
        (∀ j, pm.getD j false = true → 0 ≤ out2.getD j 0) ∧
        (∀ j, pm.getD j false = false → out2.getD j 0 = out.getD j 0) := by
  intro n
  induction n with
  | zero =>
      intro ids pm out hcount hpm hids hout
      refine ⟨0, ids, pm, out, rfl, hout, ?_, fun j _ => rfl⟩
      intro j hj
      rw [countP_zero_getD pm j hcount] at hj
      exact absurd hj Bool.false_ne_true
  | succ n ih =>
      intro ids pm out hcount hpm hids hout
      have hpos : 0 < pm.countP id := by omega
      obtain ⟨hj_lt, hj_true, hany⟩ := findIdx_true_facts pm hpos
      obtain ⟨l0, hfwt, hl0len, hl0cells⟩ :=
        fwt_single_good model L V ids tm pm am hids htm hlog
      set j := pm.findIdx id with hjdef
      set v : Nat := argmaxIdx (l0.getD j []) with hvdef
      have hstep := mono_step_single_run model ids tm pm am out l0 hfwt hany
      rw [decodeLoop, hstep]
      dsimp only
      have hcount2 : (pm.set j false).countP id = n := by
        have := countP_set_false pm j hj_lt hj_true
        omega
      obtain ⟨c, ids2, pm2, out2, hloop, hout2len, hpost1, hpost2⟩ :=
        ih (ids.set j v) (pm.set j false) (out.set j (Int.ofNat v)) hcount2
          (by rw [List.length_set]; exact hpm)
          (by rw [List.length_set]; exact hids)
          (by rw [List.length_set]; exact hout)
      rw [hloop]
      refine ⟨1 + c, ids2, pm2, out2, rfl, hout2len, ?_, ?_⟩
      · intro j0 hj0
        by_cases hjj : j = j0
        · subst hjj
          have hpm1 : (pm.set j false).getD j false = false := getD_set_false pm j
          have := hpost2 j hpm1
          rw [this, getD_set_eq out j (Int.ofNat v) 0 (by omega)]
          exact Int.ofNat_nonneg v
        · have hpm1 : (pm.set j false).getD j0 false = true := by
            rw [getD_set_ne pm j j0 false false hjj]
            exact hj0
          exact hpost1 j0 hpm1
      · intro j0 hj0
        have hjj : j ≠ j0 := by
          intro heq
          rw [← heq, hj_true] at hj0
          exact absurd hj0 (by simp)
        have hpm1 : (pm.set j false).getD j0 false = false := by
          rw [getD_set_ne pm j j0 false false hjj]
          exact hj0
        rw [hpost2 j0 hpm1, getD_set_ne out j j0 (Int.ofNat v) 0 hjj]

theorem iter_single_invariant (model : Model) (L V : Nat)
    (tm : List Bool) (am : List Nat)
    (htm : tm.countP id = model.relation_embeds.length)
    (hlog : LogitsGood model 1 L V) (hV : 1 ≤ V) :
    ∀ (n : Nat) (ids : List Nat) (pm : List Bool) (out : List Int),
      pm.countP id = n → pm.length = L → ids.length = L → out.length = L →
      ∃ c ids2 pm2 out2,
        decodeLoop (iterativeStep model) n (⟨[ids], [tm], [pm], [am]⟩, [out]) =
          (c, .ok (⟨[ids2], [tm], [pm2], [am]⟩, [out2])) ∧
        out2.length = L ∧
        (∀ j, pm.getD j false = true → 0 ≤ out2.getD j 0) ∧
        (∀ j, pm.getD j false = false → out2.getD j 0 = out.getD j 0) := by
  intro n
  induction n with
  | zero =>
      intro ids pm out hcount hpm hids hout
      refine ⟨0, ids, pm, out, rfl, hout, ?_, fun j _ => rfl⟩
      intro j hj
      rw [countP_zero_getD pm j hcount] at hj
      exact absurd hj Bool.false_ne_true
  | succ n ih =>
      intro ids pm out hcount hpm hids hout
      have hpos : 0 < pm.countP id := by omega
      obtain ⟨l0, hfwt, hl0len, hl0cells⟩ :=
        fwt_single_good model L V ids tm pm am hids htm hlog
      have hlen0 : pm.length = l0.length := by omega
      obtain ⟨hj_true, hj_lt⟩ := iter_pick_true l0 pm V hlen0 hl0cells hV hpos
      set j := argmaxIdx ((suppressRow l0 pm).map maxVal) with hjdef
      set v : Nat := argmaxIdx ((suppressRow l0 pm).getD j []) with hvdef
      have hstep := iter_step_single_run model ids tm pm am out l0 hfwt
      rw [decodeLoop, hstep]
      dsimp only
      have hcount2 : (pm.set j false).countP id = n := by
        have := countP_set_false pm j hj_lt hj_true
        omega
      obtain ⟨c, ids2, pm2, out2, hloop, hout2len, hpost1, hpost2⟩ :=
        ih (ids.set j v) (pm.set j false) (out.set j (Int.ofNat v)) hcount2
          (by rw [List.length_set]; exact hpm)
          (by rw [List.length_set]; exact hids)
          (by rw [List.length_set]; exact hout)
      rw [hloop]
      refine ⟨1 + c, ids2, pm2, out2, rfl, hout2len, ?_, ?_⟩
      · intro j0 hj0
        by_cases hjj : j = j0
        · subst hjj
          have hpm1 : (pm.set j false).getD j false = false := getD_set_false pm j
          have := hpost2 j hpm1
          rw [this, getD_set_eq out j (Int.ofNat v) 0 (by omega)]
          exact Int.ofNat_nonneg v
        · have hpm1 : (pm.set j false).getD j0 false = true := by
            rw [getD_set_ne pm j j0 false false hjj]
            exact hj0
          exact hpost1 j0 hpm1
      · intro j0 hj0
        have hjj : j ≠ j0 := by
          intro heq
          rw [← heq, hj_true] at hj0
          exact absurd hj0 (by simp)
        have hpm1 : (pm.set j false).getD j0 false = false := by
          rw [getD_set_ne pm j j0 false false hjj]
          exact hj0
        rw [hpost2 j0 hpm1, getD_set_ne out j j0 (Int.ofNat v) 0 hjj]

/-! ### Batches with more than one example: the iterative strategy over-iterates -/

theorem argmaxIdx_all_eq (l : List Int) (c : Int) (h : ∀ x ∈ l, x = c) :
    argmaxIdx l = 0 := by
  cases l with
  | nil => rfl
  | cons x xs =>
      apply argmaxIdx_zero_of_head_max
      rw [maxVal_const (x :: xs) c (by simp) h, h x (List.mem_cons_self x xs)]

theorem rows_eq_getD (m : List (List α)) (r : List α) (i : Nat)
    (h : ∀ row ∈ m, row = r) (hi : i < m.length) : m.getD i [] = r := by
  rw [List.getD_eq_getElem _ _ hi]
  exact h _ (List.getElem_mem hi)

theorem suppress_getD (lg : List (List (List Int))) (pm : List (List Bool)) (i : Nat)
    (hlen : pm.length = lg.length) (hi : i < lg.length) :
    (suppress lg pm).getD i [] = suppressRow (lg.getD i []) (pm.getD i []) := by
  induction lg generalizing pm i with
  | nil => simp at hi
  | cons l ls ih =>
      cases pm with
      | nil => simp at hlen
      | cons p ps =>
          cases i with
          | zero => simp [suppress]
          | succ i =>
              simp only [suppress, List.getD_cons_succ]
              exact ih ps i (by simpa using hlen) (by simpa using hi)

theorem writeCols_getD (d : α) (m : List (List α)) (idx : List Nat)
    (ps : List (List α)) (i : Nat) (hi : i < m.length) :
    (writeCols d m idx ps).getD i [] =
      writeRowCols (m.getD i []) (ps.getD i []) d idx := by
  induction m generalizing ps i with
  | nil => simp at hi
  | cons row rest ih =>
      cases i with
      | zero =>
          simp only [writeCols, List.getD_cons_zero]
          rw [headI_list_getD]
      | succ i =>
          simp only [writeCols, List.getD_cons_succ]
          rw [ih ps.tail i (by simpa using hi), tail_getD]

theorem writeCols_rows_length (d : α) (m : List (List α)) (idx : List Nat)
    (ps : List (List α)) (L : Nat) (h : ∀ row ∈ m, row.length = L) :
    ∀ row ∈ writeCols d m idx ps, row.length = L := by
  induction m generalizing ps with
  | nil => intro row hrow; simp [writeCols] at hrow
  | cons r rest ih =>
      intro row hrow
      rcases List.mem_cons.1 hrow with h1 | h1
      · rw [h1, writeRowCols_length]
        exact h r (List.mem_cons_self r rest)
      · exact ih ps.tail (fun rr hrr => h rr (List.mem_cons_of_mem r hrr)) row h1

theorem writeCols_dims (d : α) (m : List (List α)) (idx : List Nat)
    (ps : List (List α)) (B L : Nat) (h : Dims2 m B L) :
    Dims2 (writeCols d m idx ps) B L :=
  ⟨by rw [writeCols_length, h.1], writeCols_rows_length d m idx ps L h.2⟩

theorem clearCols_rows (pm : List (List Bool)) (idx : List Nat) (m : List Bool)
    (h : ∀ row ∈ pm, row = m) :
    ∀ row ∈ clearCols pm idx, row = idx.foldl (fun acc j => acc.set j false) m := by
  intro row hrow
  rcases List.mem_map.1 hrow with ⟨r, hr, hmap⟩
  rw [← hmap, h r hr]

theorem writeRowCols_all_zero (row ps : List α) (d : α) (idx : List Nat)
    (hne : idx ≠ []) (hall : ∀ j ∈ idx, j = 0) :
    writeRowCols row ps d idx = row.set 0 (ps.getD 0 d) := by
  induction idx generalizing row with
  | nil => exact absurd rfl hne
  | cons j tidx ih =>
      have hj : j = 0 := hall j (List.mem_cons_self j tidx)
      subst hj
      rw [writeRowCols, List.foldl_cons]
      cases tidx with
      | nil => rfl
      | cons j2 tidx2 =>
          have := ih (row.set 0 (ps.getD 0 d)) (by simp)
            (fun j hj => hall j (List.mem_cons_of_mem 0 hj))
          rw [writeRowCols] at this
          rw [this, List.set_set]

theorem iter_step_run (model : Model) (b : ModelInputs) (out : List (List Int))
    (lg : List (List (List Int)))
    (hfwt : forward_w_triggers model b = (1, .ok lg)) :
    iterativeStep model (b, out) =
      (1, .ok ({ b with
        input_ids := writeCols 0 b.input_ids
          (((suppress lg b.predict_mask).map fun row => row.map maxVal).map argmaxIdx)
          ((suppress lg b.predict_mask).map fun row => row.map argmaxIdx),
        predict_mask := clearCols b.predict_mask
          (((suppress lg b.predict_mask).map fun row => row.map maxVal).map argmaxIdx) },
        writeCols 0 out
          (((suppress lg b.predict_mask).map fun row => row.map maxVal).map argmaxIdx)
          (((suppress lg b.predict_mask).map fun row => row.map argmaxIdx).map
            fun row => row.map Int.ofNat))) := by
  rw [iterativeStep, hfwt]

theorem iter_step_batch (model : Model) (B L V : Nat) (b : ModelInputs)
    (out : List (List Int)) (m : List Bool)
    (hids : Dims2 b.input_ids B L)
    (htrig : countTrue b.trigger_mask = B * model.relation_embeds.length)
    (hlog : LogitsGood model B L V) (hV : 1 ≤ V) (hB : 1 ≤ B) (hL : 1 ≤ L)
    (hpm_len : b.predict_mask.length = B)
    (hpm_rows : ∀ row ∈ b.predict_mask, row = m)
    (hm_len : m.length = L)
    (hout : Dims2 out B L) :
    ∃ ids2 pm2 out2 m2,
      iterativeStep model (b, out) =
        (1, .ok ({ b with input_ids := ids2, predict_mask := pm2 }, out2)) ∧
      Dims2 ids2 B L ∧ Dims2 out2 B L ∧
      pm2.length = B ∧ (∀ row ∈ pm2, row = m2) ∧ m2.length = L ∧
      (m.countP id = 0 → m2.countP id = 0 ∧ get2 0 out2 0 0 = 0) ∧
      (0 < m.countP id → m2.countP id < m.countP id) := by
  obtain ⟨lg, hfwt, hlg_len, hlg_rows⟩ := fwt_good model b B L V hids htrig hlog
  set pm := b.predict_mask with hpmdef
  set slog := suppress lg pm with hslogdef
  set top := slog.map fun row => row.map maxVal with htopdef
  set idx := top.map argmaxIdx with hidxdef
  have hslog_len : slog.length = B := by rw [hslogdef, suppress_length, hlg_len]
  have htop_len : top.length = B := by rw [htopdef, List.length_map, hslog_len]
  have hidx_len : idx.length = B := by rw [hidxdef, List.length_map, htop_len]
  -- per-row characterisations
  have hslog_row : ∀ i, i < B → slog.getD i [] = suppressRow (lg.getD i []) m := by
    intro i hi
    rw [hslogdef, suppress_getD lg pm i (by omega) (by omega),
      rows_eq_getD pm m i hpm_rows (by omega)]
  have hlg_row : ∀ i, i < B → (lg.getD i []).length = L ∧
      ∀ cell ∈ lg.getD i [], cell.length = V ∧ ∀ x ∈ cell, negHuge < x := by
    intro i hi
    have hmem : lg.getD i [] ∈ lg := by
      rw [List.getD_eq_getElem _ _ (by omega)]
      exact List.getElem_mem _
    exact hlg_rows _ hmem
  have htop_row : ∀ i, i < B → top.getD i [] = (suppressRow (lg.getD i []) m).map maxVal := by
    intro i hi
    rw [htopdef, getD_map_lt _ slog i [] [] (by omega), hslog_row i hi]
  have hidx_get : ∀ i, i < B → idx.getD i 0 = argmaxIdx (top.getD i []) := by
    intro i hi
    rw [hidxdef, getD_map_lt argmaxIdx top i 0 [] (by omega)]
  -- the result of the step
  have hrun := iter_step_run model b out lg hfwt
  rw [← hslogdef, ← htopdef, ← hidxdef] at hrun
  set preds := slog.map fun row => row.map argmaxIdx with hpredsdef
  set m2 := idx.foldl (fun acc j => acc.set j false) m with hm2def
  refine ⟨writeCols 0 b.input_ids idx preds, clearCols pm idx,
    writeCols 0 out idx (preds.map fun row => row.map Int.ofNat), m2, hrun,
    writeCols_dims _ _ _ _ B L hids,
    writeCols_dims _ _ _ _ B L hout,
    by rw [clearCols_length, hpm_len],
    clearCols_rows pm idx m hpm_rows,
    by rw [hm2def, foldl_clear_length, hm_len],
    ?_, ?_⟩
  · -- the surplus case: the predict mask is empty, token 0 is written at (0, 0)
    intro hm0
    have hmfalse : ∀ j, m.getD j false = false := fun j => countP_zero_getD m j hm0
    -- every per-row argmax column is 0
    have htop_all : ∀ i, i < B → ∀ x ∈ top.getD i [], x = negHuge := by
      intro i hi x hx
      rw [htop_row i hi] at hx
      rcases List.mem_map.1 hx with ⟨cell, hcell, hmap⟩
      rcases List.mem_iff_getElem.1 hcell with ⟨j, hj, hjcell⟩
      have hjL : j < (lg.getD i []).length := by
        have := suppressRow_length (lg.getD i []) m
        omega
      have : cell = ((lg.getD i []).getD j []).map fun _ => negHuge := by
        rw [← hjcell, ← List.getD_eq_getElem _ [] hj,
          suppressRow_getD (lg.getD i []) m j (by rw [hm_len, (hlg_row i hi).1]) hjL,
          if_neg (by rw [hmfalse j]; exact Bool.false_ne_true)]
      rw [this] at hmap
      rw [← hmap]
      exact maxVal_map_const _
    have hidx_all : ∀ j ∈ idx, j = 0 := by
      intro j hj
      rcases List.mem_iff_getElem.1 hj with ⟨i, hi, hij⟩
      have hiB : i < B := by omega
      rw [← hij, ← List.getD_eq_getElem _ 0 hi, hidx_get i hiB]
      exact argmaxIdx_all_eq _ negHuge (htop_all i hiB)
    have hidx_ne : idx ≠ [] := by
      intro hnil
      rw [hnil] at hidx_len
      simp only [List.length_nil] at hidx_len
      omega
    constructor
    · -- the mask row stays empty
      rw [hm2def]
      apply List.countP_eq_zero.2
      intro a ha
      rcases List.mem_iff_getElem.1 ha with ⟨j, hj, hja⟩
      have hjlen : j < m.length := by
        have := foldl_clear_length m idx
        omega
      have : (idx.foldl (fun acc j => acc.set j false) m).getD j false = a := by
        rw [List.getD_eq_getElem _ _ hj, hja]
      rw [foldl_clear_getD m idx j] at this
      have ha_false : a = false := by
        by_cases hjin : j ∈ idx
        · rw [if_pos hjin] at this
          exact this.symm
        · rw [if_neg hjin, hmfalse j] at this
          exact this.symm
      simp [ha_false]
    · -- the output buffer has token 0 at (0, 0)
      have h0B : 0 < out.length := by rw [hout.1]; omega
      have hrow0 := writeCols_getD 0 out idx (preds.map fun row => row.map Int.ofNat) 0 h0B
      rw [writeRowCols_all_zero _ _ _ idx hidx_ne hidx_all] at hrow0
      have hval : ((preds.map fun row => row.map Int.ofNat).getD 0 []).getD 0 0 = 0 := by
        rw [show (preds.map fun row => row.map Int.ofNat).getD 0 [] =
            ((slog.getD 0 []).map argmaxIdx).map fun n => Int.ofNat n from by
          rw [hpredsdef]
          rw [getD_map_lt _ preds 0 [] [] (by rw [hpredsdef, List.length_map]; omega)]
          rw [hpredsdef, getD_map_lt _ slog 0 [] [] (by omega)]]
        rw [predsI_getD_eq]
        have hcell0 : (slog.getD 0 []).getD 0 [] =
            ((lg.getD 0 []).getD 0 []).map fun _ => negHuge := by
          rw [hslog_row 0 (by omega),
            suppressRow_getD (lg.getD 0 []) m 0
              (by rw [hm_len, (hlg_row 0 (by omega)).1])
              (by rw [(hlg_row 0 (by omega)).1]; omega),
            if_neg (by rw [hmfalse 0]; exact Bool.false_ne_true)]
        rw [hcell0, argmaxIdx_all_eq _ negHuge (by
          intro x hx
          rcases List.mem_map.1 hx with ⟨_, _, hmap⟩
          exact hmap.symm)]
        rfl
      rw [get2, hrow0, hval]
      apply getD_set_eq
      have := hout.2 (out.getD 0 []) (by
        rw [List.getD_eq_getElem _ _ h0B]
        exact List.getElem_mem h0B)
      omega
  · -- the strictly-decreasing case: row 0 picks a true column, which is cleared
    intro hmpos
    have h0B : (0 : Nat) < B := by omega
    have hpick := iter_pick_true (lg.getD 0 []) m V
      (by rw [hm_len, (hlg_row 0 h0B).1]) (hlg_row 0 h0B).2 hV hmpos
    set j0 := argmaxIdx ((suppressRow (lg.getD 0 []) m).map maxVal) with hj0def
    have hj0_idx : j0 ∈ idx := by
      have : idx.getD 0 0 = j0 := by
        rw [hidx_get 0 h0B, htop_row 0 h0B]
      rw [← this, List.getD_eq_getElem _ 0 (by omega)]
      exact List.getElem_mem _
    rw [hm2def]
    apply countP_lt_of_pointwise _ _ j0 (foldl_clear_length m idx)
    · intro i hi
      rw [foldl_clear_getD m idx i] at hi
      by_cases hin : i ∈ idx
      · rw [if_pos hin] at hi
        exact absurd hi Bool.false_ne_true
      · rw [if_neg hin] at hi
        exact hi
    · rw [foldl_clear_getD m idx j0, if_pos hj0_idx]
    · exact hpick.1

theorem iter_surplus_loop (model : Model) (B L V : Nat)
    (hlog : LogitsGood model B L V) (hV : 1 ≤ V) (hB : 1 ≤ B) (hL : 1 ≤ L) :
    ∀ (n : Nat), 1 ≤ n →
      ∀ (b : ModelInputs) (m : List Bool) (out : List (List Int)),
        Dims2 b.input_ids B L →
        countTrue b.trigger_mask = B * model.relation_embeds.length →
        b.predict_mask.length = B → (∀ row ∈ b.predict_mask, row = m) →
        m.length = L → m.countP id = 0 → Dims2 out B L →
        ∃ k st, decodeLoop (iterativeStep model) n (b, out) = (k, .ok st) ∧
          get2 0 st.2 0 0 = 0 := by
  intro n
  induction n with
  | zero => intro h; omega
  | succ n ih =>
      intro hn b m out hids htrig hpm_len hpm_rows hm_len hm0 hout
      obtain ⟨ids2, pm2, out2, m2, hstep, hids2, hout2, hpm2_len, hpm2_rows, hm2_len,
        hzero, _⟩ := iter_step_batch model B L V b out m hids htrig hlog hV hB hL
          hpm_len hpm_rows hm_len hout
      obtain ⟨hm2_0, hout2_00⟩ := hzero hm0
      rw [decodeLoop, hstep]
      dsimp only
      cases n with
      | zero =>
          exact ⟨1 + 0, _, rfl, hout2_00⟩
      | succ n =>
          obtain ⟨k, st, hloop, hst⟩ := ih (by omega)
            ({ b with input_ids := ids2, predict_mask := pm2 }) m2 out2
            hids2 htrig hpm2_len hpm2_rows hm2_len hm2_0 hout2
          rw [hloop]
          exact ⟨1 + k, st, rfl, hst⟩

theorem iter_batch_loop (model : Model) (B L V : Nat)
    (hlog : LogitsGood model B L V) (hV : 1 ≤ V) (hB : 1 ≤ B) (hL : 1 ≤ L) :
    ∀ (c : Nat), ∀ (n : Nat), c + 1 ≤ n →
      ∀ (b : ModelInputs) (m : List Bool) (out : List (List Int)),
        Dims2 b.input_ids B L →
        countTrue b.trigger_mask = B * model.relation_embeds.length →
        b.predict_mask.length = B → (∀ row ∈ b.predict_mask, row = m) →
        m.length = L → m.countP id = c → Dims2 out B L →
        ∃ k st, decodeLoop (iterativeStep model) n (b, out) = (k, .ok st) ∧
          get2 0 st.2 0 0 = 0 := by
  intro c
  induction c using Nat.strong_induction_on with
  | _ c ih =>
      intro n hn b m out hids htrig hpm_len hpm_rows hm_len hmc hout
      cases hc0 : c with
      | zero =>
          subst hc0
          exact iter_surplus_loop model B L V hlog hV hB hL n (by omega) b m out
            hids htrig hpm_len hpm_rows hm_len hmc hout
      | succ c2 =>
          obtain ⟨ids2, pm2, out2, m2, hstep, hids2, hout2, hpm2_len, hpm2_rows, hm2_len,
            _, hdec⟩ := iter_step_batch model B L V b out m hids htrig hlog hV hB hL
              hpm_len hpm_rows hm_len hout
          have hlt : m2.countP id < c := by
            rw [← hmc]
            exact hdec (by omega)
          cases n with
          | zero => omega
          | succ n =>
              rw [decodeLoop, hstep]
              dsimp only
              obtain ⟨k, st, hloop, hst⟩ := ih (m2.countP id) (by omega) n (by omega)
                ({ b with input_ids := ids2, predict_mask := pm2 }) m2 out2
                hids2 htrig hpm2_len hpm2_rows hm2_len rfl hout2
              rw [hloop]
              exact ⟨1 + k, st, rfl, hst⟩

/-! ### Parallel decode is per-row when the underlying model is -/

theorem fillRow_append (es : List (List Int)) (ms : List Bool)
    (rel s : List (List Int)) (hc : ms.countP id = rel.length)
    (hl : ms.length = es.length) :
    fillRow es ms (rel ++ s) = ((fillRow es ms rel).1, s) := by
  induction es generalizing ms rel with
  | nil =>
      cases ms with
      | nil =>
          have hnil : rel = [] := by
            apply List.length_eq_zero.1
            have := hc.symm
            simpa using this
          subst hnil
          simp [fillRow]
      | cons m tms => simp at hl
  | cons e es ih =>
      cases ms with
      | nil =>
          have hnil : rel = [] := by
            apply List.length_eq_zero.1
            have := hc.symm
            simpa using this
          subst hnil
          simp [fillRow]
      | cons m tms =>
          by_cases hm : m = true
          · subst hm
            have hc2 : tms.countP id + 1 = rel.length := by
              simp [List.countP_cons] at hc
              omega
            cases rel with
            | nil => simp at hc2
            | cons r trel =>
                simp only [fillRow, if_true, List.cons_append, List.tail_cons,
                  List.headI_cons]
                rw [ih tms trel (by simpa using hc2) (by simpa using hl)]
          · have hm2 : m = false := by simpa using hm
            subst hm2
            simp only [fillRow, Bool.false_eq_true, if_false]
            rw [ih tms rel (by simpa [List.countP_cons] using hc) (by simpa using hl)]

theorem fill2_rowwise (es : List (List (List Int))) (masks : List (List Bool))
    (rel : List (List Int))
    (hcount : ∀ row ∈ masks, row.countP id = rel.length)
    (hlens : List.Forall₂
      (fun (e : List (List Int)) (m : List Bool) => m.length = e.length) es masks) :
    fill2 es masks (tile es.length rel) =
      List.zipWith (fun e m => (fillRow e m rel).1) es masks := by
  induction hlens with
  | nil => rfl
  | cons hhead htail ih =>
      rename_i e m tes tms
      have hc := hcount m (List.mem_cons_self m tms)
      simp only [fill2, List.length_cons, List.zipWith_cons_cons]
      rw [show tile (tes.length + 1) rel = rel ++ tile tes.length rel from rfl]
      rw [show (m :: tms).headI = m from rfl, show (m :: tms).tail = tms from rfl]
      rw [fillRow_append e m rel (tile tes.length rel) hc hhead]
      rw [ih fun row hrow => hcount row (List.mem_cons_of_mem m hrow)]

/-- Per-row result of parallel decode when the underlying forward pass is
per-row (`g`); used to relate a batch to its row-permuted batch. -/
def rowParallel (model : Model) (g : List (List Int) → List Nat → List (List Int))
    (idr : List Nat) (tmr pmr : List Bool) (amr : List Nat) : List Int :=
  scatterRow pmr ((g (fillRow (idr.map model.embeds) tmr model.relation_embeds).1 amr).map
    fun v => Int.ofNat (argmaxIdx v)) (idr.map fun _ => ignoreIndex)

theorem getD_zipWith (f : α → β → γ) (l1 : List α) (l2 : List β) (i : Nat)
    (d1 : α) (d2 : β) (d3 : γ) (h1 : i < l1.length) (h2 : i < l2.length) :
    (List.zipWith f l1 l2).getD i d3 = f (l1.getD i d1) (l2.getD i d2) := by
  rw [List.getD_eq_getElem _ _ (by rw [List.length_zipWith]; omega),
    List.getElem_zipWith, List.getD_eq_getElem l1 d1 h1, List.getD_eq_getElem l2 d2 h2]

theorem parallel_rowwise (model : Model) (b : ModelInputs) (B L : Nat)
    (g : List (List Int) → List Nat → List (List Int))
    (hrowfwd : ∀ e a, model.forward e a = List.zipWith g e a)
    (hwf : WFBundle b B L)
    (hT : ∀ row ∈ b.trigger_mask, row.countP id = model.relation_embeds.length) :
    ∃ out, decode model b "parallel" = (1, .ok (b, out)) ∧ out.length = B ∧
      ∀ i, i < B → out.getD i [] =
        rowParallel model g (b.input_ids.getD i []) (b.trigger_mask.getD i [])
          (b.predict_mask.getD i []) (b.attention_mask.getD i []) := by
  obtain ⟨hdi, hdt, hdp, hda⟩ := hwf
  have htrig : countTrue b.trigger_mask =
      b.input_ids.length * model.relation_embeds.length := by
    rw [countTrue_per_row _ _ hT, hdt.1, hdi.1]
  obtain ⟨lg, hfwt, hdec⟩ := parallel_run model b htrig
  have hE : fill2 (inputEmbeds model b.input_ids) b.trigger_mask
      (tile b.input_ids.length model.relation_embeds) =
      List.zipWith (fun e m => (fillRow e m model.relation_embeds).1)
        (inputEmbeds model b.input_ids) b.trigger_mask := by
    rw [show b.input_ids.length = (inputEmbeds model b.input_ids).length from
      (inputEmbeds_length model b.input_ids).symm]
    apply fill2_rowwise _ _ _ hT
    rw [List.forall₂_iff_get]
    refine ⟨by rw [inputEmbeds_length, hdi.1, hdt.1], ?_⟩
    intro i h1 h2
    rw [hdt.2 _ (List.get_mem _ i h2),
      inputEmbeds_rows_length model b.input_ids L hdi.2 _ (List.get_mem _ i h1)]
  have hlg : lg = List.zipWith g
      (List.zipWith (fun e m => (fillRow e m model.relation_embeds).1)
        (inputEmbeds model b.input_ids) b.trigger_mask) b.attention_mask := by
    have h2 := fwt_exact model b htrig
    rw [hfwt] at h2
    simp only [Prod.mk.injEq, Except.ok.injEq] at h2
    rw [h2.2, hE, hrowfwd]
  have hlg_len : lg.length = B := by
    rw [hlg, List.length_zipWith, List.length_zipWith, inputEmbeds_length,
      hdi.1, hdt.1, hda.1]
    omega
  refine ⟨_, hdec, ?_, ?_⟩
  · rw [scatter2_length, mkOutput_length, hdi.1]
  · intro i hi
    have hiids : i < b.input_ids.length := by rw [hdi.1]; omega
    have hitm : i < b.trigger_mask.length := by rw [hdt.1]; omega
    have hia : i < b.attention_mask.length := by rw [hda.1]; omega
    have himk : i < (mkOutput b.input_ids).length := by rw [mkOutput_length]; omega
    have hiE : i < (List.zipWith (fun e m => (fillRow e m model.relation_embeds).1)
        (inputEmbeds model b.input_ids) b.trigger_mask).length := by
      rw [List.length_zipWith, inputEmbeds_length]
      omega
    rw [scatter2_getD_row _ _ _ i (by rw [hdp.1, mkOutput_length, hdi.1]) himk]
    have hpreds : (lg.map fun row => row.map fun v => Int.ofNat (argmaxIdx v)).getD i [] =
        (lg.getD i []).map fun v => Int.ofNat (argmaxIdx v) :=
      getD_map_lt _ lg i [] [] (by omega)
    have hlgrow : lg.getD i [] =
        g ((fillRow ((b.input_ids.getD i []).map model.embeds)
            (b.trigger_mask.getD i []) model.relation_embeds).1)
          (b.attention_mask.getD i []) := by
      rw [hlg, getD_zipWith g _ b.attention_mask i [] [] [] hiE hia,
        getD_zipWith (fun e m => (fillRow e m model.relation_embeds).1)
          (inputEmbeds model b.input_ids) b.trigger_mask i [] [] []
          (by rw [inputEmbeds_length]; omega) hitm]
      rw [show (inputEmbeds model b.input_ids).getD i [] =
          (b.input_ids.getD i []).map model.embeds from
        getD_map_lt _ b.input_ids i [] [] hiids]
    have hmk : (mkOutput b.input_ids).getD i [] =
        (b.input_ids.getD i []).map fun _ => ignoreIndex :=
      getD_map_lt _ b.input_ids i [] [] hiids
    rw [hpreds, hlgrow, hmk, rowParallel]

theorem gatherRows_length (p : List Nat) (m : List (List α)) :
    (gatherRows p m).length = p.length := by
  simp [gatherRows]

theorem gatherRows_getD (p : List Nat) (m : List (List α)) (j : Nat)
    (hj : j < p.length) :
    (gatherRows p m).getD j [] = m.getD (p.getD j 0) [] := by
  rw [gatherRows, getD_map_lt _ p j [] 0 hj]

theorem gather_dims (p : List Nat) (m : List (List α)) (B L : Nat)
    (hd : Dims2 m B L) (hp : ∀ i ∈ p, i < B) (hplen : p.length = B) :
    Dims2 (gatherRows p m) B L := by
  constructor
  · rw [gatherRows_length, hplen]
  · intro row hrow
    rcases List.mem_map.1 hrow with ⟨i, hip, hmap⟩
    have hiB : i < m.length := by rw [hd.1]; exact hp i hip
    rw [← hmap, List.getD_eq_getElem _ _ hiB]
    exact hd.2 _ (List.getElem_mem hiB)

theorem gather_rows_prop (p : List Nat) (m : List (List α)) (B : Nat)
    (P : List α → Prop) (hd : m.length = B) (hp : ∀ i ∈ p, i < B)
    (h : ∀ row ∈ m, P row) : ∀ row ∈ gatherRows p m, P row := by
  intro row hrow
  rcases List.mem_map.1 hrow with ⟨i, hip, hmap⟩
  have hiB : i < m.length := by rw [hd]; exact hp i hip
  rw [← hmap, List.getD_eq_getElem _ _ hiB]
  exact h _ (List.getElem_mem hiB)

theorem list_ext_getD (a b : List (List α)) (hlen : a.length = b.length)
    (h : ∀ i, i < a.length → a.getD i [] = b.getD i []) : a = b := by
  apply List.ext_getElem hlen
  intro i h1 h2
  have := h i h1
  rw [List.getD_eq_getElem _ _ h1, List.getD_eq_getElem _ _ h2] at this
  exact this

theorem preds_get2 (lg : List (List (List Int))) (r c : Nat) :
    get2 0 (lg.map fun row => row.map fun v => Int.ofNat (argmaxIdx v)) r c =
      Int.ofNat (argmaxIdx (get2 [] lg r c)) := by
  rw [get2, get2]
  by_cases hr : r < lg.length
  · rw [getD_map_lt _ lg r [] [] hr]
    by_cases hc : c < (lg.getD r []).length
    · rw [getD_map_lt _ _ c 0 [] hc]
    · have h1 : ((lg.getD r []).map fun v => Int.ofNat (argmaxIdx v)).getD c 0 = 0 :=
        List.getD_eq_default _ _ (by simpa using Nat.le_of_not_lt hc)
      have h2 : (lg.getD r []).getD c [] = [] :=
        List.getD_eq_default _ _ (Nat.le_of_not_lt hc)
      rw [h1, h2]
      rfl
  · have h1 : (lg.map fun row => row.map fun v => Int.ofNat (argmaxIdx v)).getD r [] = [] :=
      List.getD_eq_default _ _ (by simpa using Nat.le_of_not_lt hr)
    have h2 : lg.getD r [] = [] := List.getD_eq_default _ _ (Nat.le_of_not_lt hr)
    rw [h1, h2]
    simp only [List.getD_nil]
    rfl

/-! ### Concrete instances used in counterexamples and witnesses -/

/-- A two-example model with no trigger vectors and constant logits: row 0
logits prefer token 1 everywhere, row 1 likewise. -/
def cexModel : Model :=
  { embeds := fun t => [Int.ofNat t]
    relation_embeds := []
    forward := fun _ _ => [[[1, 2], [3, 4]], [[5, 6], [7, 8]]] }

/-- A two-example bundle, sequence length 2, both rows predicting column 1
(identical predict masks), no trigger positions. -/
def cexBundle : ModelInputs :=
  { input_ids := [[9, 9], [9, 9]]
    trigger_mask := [[false, false], [false, false]]
    predict_mask := [[false, true], [false, true]]
    attention_mask := [[1, 1], [1, 1]] }

/-- A one-example model with one trigger vector, used for the broadcast
counterexample of the shape-mismatch claim. -/
def cexModelB : Model :=
  { embeds := fun t => [Int.ofNat t]
    relation_embeds := [[5]]
    forward := fun e _ => e.map fun row => row.map fun _ => [1, 2] }

/-- A one-example bundle whose trigger mask has two true positions, although
the model holds a single trigger vector. -/
def cexBundleB : ModelInputs :=
  { input_ids := [[9, 9, 9]]
    trigger_mask := [[true, true, false]]
    predict_mask := [[false, false, true]]
    attention_mask := [[1, 1, 1]] }

/-- A one-example model with one trigger vector and per-row constant logits
preferring token 0. -/
def wModel1 : Model :=
  { embeds := fun t => [Int.ofNat t]
    relation_embeds := [[7]]
    forward := fun e _ => e.map fun _ => [[9, 5], [1, 2]] }

/-- A model with two trigger vectors, used for the shape-mismatch witness. -/
def wModel7 : Model :=
  { embeds := fun t => [Int.ofNat t]
    relation_embeds := [[5], [6]]
    forward := fun e _ => e.map fun row => row.map fun _ => [1, 2] }

/-- A one-example bundle with a single trigger position, mismatching the two
trigger vectors of `wModel7`. -/
def wBundle7 : ModelInputs :=
  { input_ids := [[9, 9, 9]]
    trigger_mask := [[true, false, false]]
    predict_mask := [[false, false, true]]
    attention_mask := [[1, 1, 1]] }

/-- The end-to-end scenario of the specification: two examples, sequence
length 6, one trigger position at column 1, one predict position at
column 4, a single trigger vector; logits prefer token 1. -/
def wModel5 : Model :=
  { embeds := fun t => [Int.ofNat t]
    relation_embeds := [[5]]
    forward := fun e _ => e.map fun row => row.map fun _ => [0, 3, 1] }

/-- The 2-by-6 bundle of the end-to-end scenario. -/
def wBundle5 : ModelInputs :=
  { input_ids := [[1, 0, 2, 3, 0, 4], [1, 0, 5, 6, 0, 7]]
    trigger_mask := [[false, true, false, false, false, false],
                     [false, true, false, false, false, false]]
    predict_mask := [[false, false, false, false, true, false],
                     [false, false, false, false, true, false]]
    attention_mask := [[1, 1, 1, 1, 1, 1], [1, 1, 1, 1, 1, 1]] }

/-- A zero-predict one-example bundle for the idempotence witness. -/
def wBundle8 : ModelInputs :=
  { input_ids := [[3, 4]]
    trigger_mask := [[true, false]]
    predict_mask := [[false, false]]
    attention_mask := [[1, 1]] }

/-! ## Claim theorems -/

/-- C1 counterexample: on a two-example batch whose predict masks each hold
one true position (so the batch-wide count is 2), the monotonic strategy does
not commit every predict position in increasing order as the claim states:
the loop runs `predict_mask.sum() = 2` iterations but clears the single
shared column for both rows in the first one, so the second iteration's
`nonzero()[0,1]` raises an IndexError instead of returning predictions,
while the process the claim describes (`monotonicSpecRun`) completes. -/
theorem cex_monotonic_batch :
    1 ≤ countTrue cexBundle.predict_mask ∧
    (decode cexModel cexBundle "monotonic").2 = Except.error idxErr ∧
    getOut (monotonicSpecRun cexModel cexBundle) = some [[-100, 1], [-100, 1]] :=
  ⟨by decide, by rfl, by rfl⟩

/-- C1 (amended): for a single-example batch whose predict mask has at least
one true position, decode with the monotonic strategy behaves exactly as the
claim describes: each iteration runs one forward pass, selects the first
remaining predict position in left-to-right order, writes the argmax token at
that position into both the token-id sequence and the output buffer, and
clears that position from the predict mask — formalised as equality with
`monotonicSpecRun`, the process modelled from the specification's words.
The hypothesis on `model.forward` states that the underlying model returns
one logits row per batch row. -/
theorem decode_monotonic_single (model : Model)
    (ids : List Nat) (tm pm : List Bool) (am : List Nat)
    (hM : ∀ e a, (model.forward e a).length = e.length)
    (hp : 1 ≤ pm.countP id) :
    decode model ⟨[ids], [tm], [pm], [am]⟩ "monotonic" =
      monotonicSpecRun model ⟨[ids], [tm], [pm], [am]⟩ := by
  rw [decode_monotonic_def, monotonicSpecRun]
  exact mono_loop_single model hM _ ids tm pm am _

/-- Witness for C1: the amended theorem applied at a concrete one-example
bundle with a predict position. -/
theorem decode_monotonic_single_witness :
    1 ≤ List.countP id [false, true] ∧
    decode wModel1 ⟨[[3, 4]], [[true, false]], [[false, true]], [[1, 1]]⟩ "monotonic" =
      monotonicSpecRun wModel1 ⟨[[3, 4]], [[true, false]], [[false, true]], [[1, 1]]⟩ :=
  ⟨by decide, decode_monotonic_single wModel1 [3, 4] [true, false] [false, true] [1, 1]
    (fun e a => by simp [wModel1]) (by decide)⟩

/-- C2 counterexample: on a two-example batch the iterative strategy does not
commit a single globally-best (row, position) pair per iteration: `idx` is a
per-row argmax vector, a whole column set is cleared for every row at once,
and the surplus iterations (the loop runs the batch-total count) write token
id 0 at column 0.  The code's output `[[0,1],[0,1]]` differs from the output
`[[-100,1],[-100,1]]` of the process the claim describes
(`iterativeSpecRun`). -/
theorem cex_iterative_batch :
    1 ≤ countTrue cexBundle.predict_mask ∧
    getOut (decode cexModel cexBundle "iterative") = some [[0, 1], [0, 1]] ∧
    getOut (iterativeSpecRun cexModel cexBundle) = some [[-100, 1], [-100, 1]] ∧
    getOut (decode cexModel cexBundle "iterative") ≠
      getOut (iterativeSpecRun cexModel cexBundle) :=
  ⟨by decide, by rfl, by rfl, by decide⟩

/-- C2 (amended): for a single-example batch whose predict mask has at least
one true position, decode with the iterative strategy behaves exactly as the
claim describes: each iteration suppresses the logits outside the current
predict mask, commits the single (row, position) pair with the globally
highest suppressed logit value into the token-id sequence and the output
buffer, and clears that position — formalised as equality with
`iterativeSpecRun`, the process modelled from the specification's words. -/
theorem decode_iterative_single (model : Model)
    (ids : List Nat) (tm pm : List Bool) (am : List Nat)
    (hM : ∀ e a, (model.forward e a).length = e.length)
    (hp : 1 ≤ pm.countP id) :
    decode model ⟨[ids], [tm], [pm], [am]⟩ "iterative" =
      iterativeSpecRun model ⟨[ids], [tm], [pm], [am]⟩ := by
  rw [decode_iterative_def, iterativeSpecRun]
  exact iter_loop_single model hM _ ids tm pm am _

/-- Witness for C2: the amended theorem applied at a concrete one-example
bundle with a predict position. -/
theorem decode_iterative_single_witness :
    1 ≤ List.countP id [false, true] ∧
    decode wModel1 ⟨[[3, 4]], [[true, false]], [[false, true]], [[1, 1]]⟩ "iterative" =
      iterativeSpecRun wModel1 ⟨[[3, 4]], [[true, false]], [[false, true]], [[1, 1]]⟩ :=
  ⟨by decide, decode_iterative_single wModel1 [3, 4] [true, false] [false, true] [1, 1]
    (fun e a => by simp [wModel1]) (by decide)⟩

/-- C3 counterexample: on a two-example batch (identical predict masks, one
predict position per row) the iterative strategy returns an output buffer in
which the non-predict position (0,0) holds token id 0 instead of the ignore
sentinel, so the claimed postcondition fails. -/
theorem cex_decode_postcondition :
    (getOut (decode cexModel cexBundle "iterative")).map
      (postcondHolds cexBundle.predict_mask) = some false := by
  rfl

/-- C3 (amended): the postcondition holds for the parallel strategy on any
batch, and for the monotonic and iterative strategies on single-example
batches: when decode returns, every position that was true in the predict
mask at entry holds a token id (a nonnegative vocabulary index) in the
output buffer, and every other position still holds the ignore sentinel.
Hypotheses: a well-shaped bundle, the trigger-count invariant of the data
model, and an underlying model producing well-shaped logits above the
suppression constant. -/
theorem decode_postcondition (model : Model) (b : ModelInputs) (s : String)
    (B L V : Nat)
    (hs : s ∈ strategies)
    (hwf : WFBundle b B L)
    (htrig : countTrue b.trigger_mask = B * model.relation_embeds.length)
    (hlog : LogitsGood model B L V) (hV : 1 ≤ V)
    (hres : s = "parallel" ∨ B = 1) :
    ∃ n st, decode model b s = (n, .ok st) ∧
      postcondHolds b.predict_mask st.2 = true := by
  obtain ⟨hdi, hdt, hdp, hda⟩ := hwf
  have hs3 : s = "parallel" ∨ s = "monotonic" ∨ s = "iterative" := by
    simpa [strategies] using hs
  have hpar : s = "parallel" →
      ∃ n st, decode model b s = (n, .ok st) ∧
        postcondHolds b.predict_mask st.2 = true := by
    intro h
    subst h
    obtain ⟨lg, hfwt, hdec⟩ := parallel_run model b (by rw [hdi.1]; exact htrig)
    refine ⟨1, _, hdec, ?_⟩
    apply postcond_scatter2
    · exact forall₂_length_of_dims _ _ B L hdp (mkOutput_rows _ B L hdi)
    · exact mkOutput_mem b.input_ids
    · exact preds_nonneg lg
  rcases hs3 with h | h | h
  · exact hpar h
  · -- monotonic on a single-example batch
    rcases hres with hpp | hB1
    · rw [h] at hpp
      exact absurd hpp (by decide)
    · subst h
      subst hB1
      obtain ⟨ids, tm, pm, am⟩ := b
      simp only at hdi hdt hdp hda ⊢
      obtain ⟨ids0, hids0⟩ := List.length_eq_one.1 hdi.1
      obtain ⟨tm0, htm0⟩ := List.length_eq_one.1 hdt.1
      obtain ⟨pm0, hpm0⟩ := List.length_eq_one.1 hdp.1
      obtain ⟨am0, ham0⟩ := List.length_eq_one.1 hda.1
      subst hids0
      subst htm0
      subst hpm0
      subst ham0
      have htm0c : tm0.countP id = model.relation_embeds.length := by
        have h9 := htrig
        simpa [countTrue] using h9
      have hids0L : ids0.length = L := hdi.2 ids0 (List.mem_singleton.2 rfl)
      have hpm0L : pm0.length = L := hdp.2 pm0 (List.mem_singleton.2 rfl)
      rw [decode_monotonic_def]
      rw [show countTrue [pm0] = pm0.countP id from by simp [countTrue]]
      rw [show mkOutput [ids0] = [ids0.map fun _ => ignoreIndex] from rfl]
      obtain ⟨c, ids2, pm2, out2, hloop, hout2len, hpost1, hpost2⟩ :=
        mono_single_invariant model L V tm0 am0 htm0c hlog (pm0.countP id) ids0 pm0
          (ids0.map fun _ => ignoreIndex) rfl hpm0L hids0L (by simpa using hids0L)
      refine ⟨c, _, hloop, ?_⟩
      rw [show postcondHolds [pm0] [out2] = postRow pm0 out2 from by
        simp [postcondHolds]]
      apply postRow_of_pointwise pm0 out2 (by omega)
      intro j hj
      constructor
      · exact hpost1 j
      · intro hfalse
        rw [hpost2 j hfalse, getD_map_lt _ ids0 j 0 0 (by omega)]
  · -- iterative on a single-example batch
    rcases hres with hpp | hB1
    · rw [h] at hpp
      exact absurd hpp (by decide)
    · subst h
      subst hB1
      obtain ⟨ids, tm, pm, am⟩ := b
      simp only at hdi hdt hdp hda ⊢
      obtain ⟨ids0, hids0⟩ := List.length_eq_one.1 hdi.1
      obtain ⟨tm0, htm0⟩ := List.length_eq_one.1 hdt.1
      obtain ⟨pm0, hpm0⟩ := List.length_eq_one.1 hdp.1
      obtain ⟨am0, ham0⟩ := List.length_eq_one.1 hda.1
      subst hids0
      subst htm0
      subst hpm0
      subst ham0
      have htm0c : tm0.countP id = model.relation_embeds.length := by
        have h9 := htrig
        simpa [countTrue] using h9
      have hids0L : ids0.length = L := hdi.2 ids0 (List.mem_singleton.2 rfl)
      have hpm0L : pm0.length = L := hdp.2 pm0 (List.mem_singleton.2 rfl)
      rw [decode_iterative_def]
      rw [show countTrue [pm0] = pm0.countP id from by simp [countTrue]]
      rw [show mkOutput [ids0] = [ids0.map fun _ => ignoreIndex] from rfl]
      obtain ⟨c, ids2, pm2, out2, hloop, hout2len, hpost1, hpost2⟩ :=
        iter_single_invariant model L V tm0 am0 htm0c hlog hV (pm0.countP id) ids0 pm0
          (ids0.map fun _ => ignoreIndex) rfl hpm0L hids0L (by simpa using hids0L)
      refine ⟨c, _, hloop, ?_⟩
      rw [show postcondHolds [pm0] [out2] = postRow pm0 out2 from by
        simp [postcondHolds]]
      apply postRow_of_pointwise pm0 out2 (by omega)
      intro j hj
      constructor
      · exact hpost1 j
      · intro hfalse
        rw [hpost2 j hfalse, getD_map_lt _ ids0 j 0 0 (by omega)]

/-- One-example model for the postcondition witness: one trigger vector,
logits of width 2 favouring token 1 at position 0 and token 0 at position 1. -/
def wModel3 : Model :=
  { embeds := fun t => [Int.ofNat t]
    relation_embeds := [[7]]
    forward := fun e _ => e.map fun _ => [[2, 3], [4, 1]] }

/-- One-example bundle for the postcondition witness. -/
def wBundle3 : ModelInputs :=
  { input_ids := [[3, 4]]
    trigger_mask := [[true, false]]
    predict_mask := [[false, true]]
    attention_mask := [[1, 1]] }

/-- Witness for C3: the amended theorem applied to a one-example bundle with
the iterative strategy. -/
theorem decode_postcondition_witness :
    ("iterative" : String) ∈ strategies ∧
    (∃ n st, decode wModel3 wBundle3 "iterative" = (n, .ok st) ∧
      postcondHolds wBundle3.predict_mask st.2 = true) :=
  ⟨by decide, decode_postcondition wModel3 wBundle3 "iterative" 1 2 2 (by decide)
    ⟨⟨by decide, by decide⟩, ⟨by decide, by decide⟩, ⟨by decide, by decide⟩,
      ⟨by decide, by decide⟩⟩
    (by decide)
    (by
      intro e a h1 h2
      constructor
      · rw [show wModel3.forward e a = e.map fun _ => [[2, 3], [4, 1]] from rfl,
          List.length_map, h1]
      · intro row hrow
        rcases List.mem_map.1 hrow with ⟨_, _, hmap⟩
        rw [← hmap]
        exact ⟨by decide, by decide⟩)
    (by decide) (Or.inr rfl)⟩

/-- C4: `forward_w_triggers` leaves the caller's input bundle unmodified.
The source takes a shallow copy of the dictionary
(`model_inputs = model_inputs.copy()`) before its three destructive `pop`
operations, and the embeddings tensor it overwrites is freshly built from
`input_ids`, so after the call the caller's dictionary still holds its token
ids, trigger mask, predict mask and attention mask entries unchanged.  In
the embedding, `forward_w_triggers_dict` returns the caller-visible
dictionary as its first component; it equals the input dictionary. -/
theorem fwt_dict_frame (model : Model) (d : InputDict) :
    (forward_w_triggers_dict model d).1 = d := by
  rcases d with ⟨i, t, p, a⟩
  cases t <;> cases p <;> cases i <;> cases a <;> rfl

/-- C5: parallel decode runs the forward pass exactly once, returns the
caller's bundle unmutated (neither predict mask nor token ids change), and
its output buffer holds, at every in-range position, the vocabulary argmax
of the logits where the predict mask is true and the ignore sentinel
elsewhere. -/
theorem decode_parallel_once (model : Model) (b : ModelInputs) (B L : Nat)
    (hdi : Dims2 b.input_ids B L) (hdp : Dims2 b.predict_mask B L)
    (htrig : countTrue b.trigger_mask = B * model.relation_embeds.length) :
    ∃ logits out, forward_w_triggers model b = (1, .ok logits) ∧
      decode model b "parallel" = (1, .ok (b, out)) ∧
      ∀ r c, r < B → c < L →
        get2 0 out r c = if get2 false b.predict_mask r c = true
          then Int.ofNat (argmaxIdx (get2 [] logits r c)) else ignoreIndex := by
  obtain ⟨lg, hfwt, hdec⟩ := parallel_run model b (by rw [hdi.1]; exact htrig)
  refine ⟨lg, _, hfwt, hdec, ?_⟩
  intro r c hr hc
  have hrids : r < b.input_ids.length := by rw [hdi.1]; omega
  have hrmk : r < (mkOutput b.input_ids).length := by rw [mkOutput_length]; omega
  have hmkrow : (mkOutput b.input_ids).getD r [] =
      (b.input_ids.getD r []).map fun _ => ignoreIndex :=
    getD_map_lt _ b.input_ids r [] [] hrids
  have hidsrowL : (b.input_ids.getD r []).length = L := by
    rw [List.getD_eq_getElem _ _ hrids]
    exact hdi.2 _ (List.getElem_mem hrids)
  have hpmrowL : (b.predict_mask.getD r []).length = L := by
    have hrpm : r < b.predict_mask.length := by rw [hdp.1]; omega
    rw [List.getD_eq_getElem _ _ hrpm]
    exact hdp.2 _ (List.getElem_mem hrpm)
  rw [get2, scatter2_getD_row _ _ _ r (by rw [hdp.1, mkOutput_length, hdi.1]) hrmk]
  rw [scatterRow_getD _ _ _ c (by rw [hpmrowL, hmkrow, List.length_map, hidsrowL])
    (by rw [hmkrow, List.length_map, hidsrowL]; omega)]
  rw [get2]
  by_cases hm : (b.predict_mask.getD r []).getD c false = true
  · rw [if_pos hm, if_pos hm]
    have h3 := preds_get2 lg r c
    rw [get2, get2] at h3
    rw [h3, get2]
  · rw [if_neg hm, if_neg hm, hmkrow, getD_map_lt _ _ c 0 0 (by omega)]

/-- Witness for C5: the end-to-end scenario of the specification — a
2-example batch of sequence length 6 with trigger column 1 and predict
column 4 and a single trigger vector; parallel decode makes exactly one
forward pass and yields a 2-by-6 buffer that is the sentinel everywhere
except column 4. -/
theorem decode_parallel_once_witness :
    countTrue wBundle5.trigger_mask =
      wBundle5.input_ids.length * wModel5.relation_embeds.length ∧
    getOut (decode wModel5 wBundle5 "parallel") =
      some [[-100, -100, -100, -100, 1, -100], [-100, -100, -100, -100, 1, -100]] ∧
    (∃ logits out, forward_w_triggers wModel5 wBundle5 = (1, .ok logits) ∧
      decode wModel5 wBundle5 "parallel" = (1, .ok (wBundle5, out)) ∧
      ∀ r c, r < 2 → c < 6 →
        get2 0 out r c = if get2 false wBundle5.predict_mask r c = true
          then Int.ofNat (argmaxIdx (get2 [] logits r c)) else ignoreIndex) :=
  ⟨by decide, by rfl,
    decode_parallel_once wModel5 wBundle5 2 6 ⟨by decide, by decide⟩
      ⟨by decide, by decide⟩ (by decide)⟩

/-- C6: the decoding-strategy assertion. For every strategy value outside
the three legal names, decode fails immediately with the assertion error,
before allocating an output buffer or invoking any forward pass (the
forward counter is 0); for the three named values this failure path is never
taken (any error the call returns is a different one). -/
theorem decode_strategy_gate (model : Model) (b : ModelInputs) (s : String) :
    (s ∉ strategies → decode model b s = (0, Except.error assertErr)) ∧
    (s ∈ strategies → (decode model b s).2 ≠ Except.error assertErr) := by
  constructor
  · exact decode_assert model b s
  · intro hs hcontra
    have hs3 : s = "parallel" ∨ s = "monotonic" ∨ s = "iterative" := by
      simpa [strategies] using hs
    rcases hs3 with h | h | h
    · subst h
      rw [decode_parallel_def] at hcontra
      rcases hf : forward_w_triggers model b with ⟨n, r⟩
      rw [hf] at hcontra
      cases r with
      | error e =>
          have he : e = assertErr := by simpa using hcontra
          have hse := (fwt_error_cases model b n e hf).1
          rw [he] at hse
          exact absurd hse (by decide)
      | ok lg => simp at hcontra
    · subst h
      rw [decode_monotonic_def] at hcontra
      rcases hl : decodeLoop (monotonicStep model) (countTrue b.predict_mask)
          (b, mkOutput b.input_ids) with ⟨k, r⟩
      rw [hl] at hcontra
      cases r with
      | error e =>
          have he : e = assertErr := by simpa using hcontra
          have horigin := decodeLoop_error_src (monotonicStep model)
            (fun e2 => e2 = shapeErr ∨ e2 = idxErr)
            (fun st c e2 h2 => monotonicStep_error model st c e2 h2)
            (countTrue b.predict_mask) (b, mkOutput b.input_ids) k e hl
          rw [he] at horigin
          rcases horigin with h2 | h2 <;> exact absurd h2 (by decide)
      | ok st => simp at hcontra
    · subst h
      rw [decode_iterative_def] at hcontra
      rcases hl : decodeLoop (iterativeStep model) (countTrue b.predict_mask)
          (b, mkOutput b.input_ids) with ⟨k, r⟩
      rw [hl] at hcontra
      cases r with
      | error e =>
          have he : e = assertErr := by simpa using hcontra
          have horigin := decodeLoop_error_src (iterativeStep model)
            (fun e2 => e2 = shapeErr)
            (fun st c e2 h2 => iterativeStep_error model st c e2 h2)
            (countTrue b.predict_mask) (b, mkOutput b.input_ids) k e hl
          rw [he] at horigin
          exact absurd horigin (by decide)
      | ok st => simp at hcontra

/-- Witness for C6: an unknown strategy string fails fast with the assertion
error and zero forward passes, while a legal one does not take that path. -/
theorem decode_strategy_gate_witness :
    decode cexModel cexBundle "greedy" = (0, Except.error assertErr) ∧
    (decode cexModel cexBundle "parallel").2 ≠ Except.error assertErr :=
  ⟨(decode_strategy_gate cexModel cexBundle "greedy").1 (by decide),
   (decode_strategy_gate cexModel cexBundle "parallel").2 (by decide)⟩

/-- C7 counterexample: the claim states any mismatch between the trigger-mask
count and the Trigger Parameter Set's (batch-tiled) leading dimension raises
a shape error, but when that leading dimension is 1 the assignment
broadcasts instead: here the mask holds 2 true positions against a single
tiled trigger row (batch 1 times 1 vector), yet `forward_w_triggers`
succeeds and the model forward completes. -/
theorem cex_trigger_broadcast :
    countTrue cexBundleB.trigger_mask ≠
      cexBundleB.input_ids.length * cexModelB.relation_embeds.length ∧
    forward_w_triggers cexModelB cexBundleB =
      (1, Except.ok [[[1, 2], [1, 2], [1, 2]]]) :=
  ⟨by decide, by rfl⟩

/-- C7 (amended): if the number of true entries in the trigger mask differs
from the Trigger Parameter Set's leading dimension tiled across the batch,
and that tiled dimension is not 1 (the broadcastable case), then
`forward_w_triggers` raises the shape-mismatch error before any forward
computation of the underlying model (the forward counter is 0). -/
theorem fwt_shape_mismatch_raises (model : Model) (b : ModelInputs)
    (hmis : countTrue b.trigger_mask ≠
      b.input_ids.length * model.relation_embeds.length)
    (hone : b.input_ids.length * model.relation_embeds.length ≠ 1) :
    forward_w_triggers model b = (0, Except.error shapeErr) :=
  fwt_mismatch_error model b hmis hone

/-- Witness for C7: one trigger-mask position against two trigger vectors
raises the shape error with zero forward passes. -/
theorem fwt_shape_mismatch_raises_witness :
    countTrue wBundle7.trigger_mask ≠
      wBundle7.input_ids.length * wModel7.relation_embeds.length ∧
    forward_w_triggers wModel7 wBundle7 = (0, Except.error shapeErr) :=
  ⟨by decide, fwt_shape_mismatch_raises wModel7 wBundle7 (by decide) (by decide)⟩

/-- C8: with zero true predict positions, decode returns an all-sentinel
output buffer under any of the three strategies, leaves the bundle (token
ids and predict mask included) unchanged, and invokes zero iterations hence
zero forward passes for monotonic and iterative, and only the one initial
forward pass for parallel. -/
theorem decode_zero_predict (model : Model) (b : ModelInputs) (s : String)
    (B L : Nat)
    (hs : s ∈ strategies)
    (hzero : countTrue b.predict_mask = 0)
    (hdi : Dims2 b.input_ids B L) (hdp : Dims2 b.predict_mask B L)
    (htrig : countTrue b.trigger_mask = B * model.relation_embeds.length) :
    decode model b s =
      ((if s = "parallel" then 1 else 0), .ok (b, mkOutput b.input_ids)) := by
  have hs3 : s = "parallel" ∨ s = "monotonic" ∨ s = "iterative" := by
    simpa [strategies] using hs
  rcases hs3 with h | h | h
  · subst h
    obtain ⟨lg, hfwt, hdec⟩ := parallel_run model b (by rw [hdi.1]; exact htrig)
    rw [hdec, if_pos rfl]
    rw [scatter2_zero _ _ _ (rows_countP_zero _ hzero)
      (forall₂_length_of_dims _ _ B L hdp (mkOutput_rows _ B L hdi))]
  · subst h
    rw [decode_monotonic_def, hzero, if_neg (by decide : ¬("monotonic" : String) = "parallel")]
    rfl
  · subst h
    rw [decode_iterative_def, hzero, if_neg (by decide : ¬("iterative" : String) = "parallel")]
    rfl

/-- Witness for C8: a zero-predict one-example bundle decoded with the
monotonic strategy returns the all-sentinel buffer with zero forward passes
and an unchanged bundle. -/
theorem decode_zero_predict_witness :
    countTrue wBundle8.predict_mask = 0 ∧
    decode wModel1 wBundle8 "monotonic" =
      (0, Except.ok (wBundle8, mkOutput wBundle8.input_ids)) := by
  refine ⟨by decide, ?_⟩
  have h9 := decode_zero_predict wModel1 wBundle8 "monotonic" 1 2 (by decide) (by decide)
    ⟨by decide, by decide⟩ ⟨by decide, by decide⟩ (by decide)
  simpa using h9

/-- C9: parallel decode is permutation-equivariant over batch examples when
the underlying forward pass is per-row (`forward = zipWith g`): for every
permutation `p` of the row indices, decoding the row-permuted bundle yields
exactly the row-permuted output buffer, with no cross-example interaction.
The trigger-mask hypothesis is the data-model invariant that every example
carries one trigger position per trigger vector. -/
theorem decode_parallel_permutation (model : Model) (b : ModelInputs) (B L : Nat)
    (g : List (List Int) → List Nat → List (List Int)) (p : List Nat)
    (hrowfwd : ∀ e a, model.forward e a = List.zipWith g e a)
    (hwf : WFBundle b B L)
    (hT : ∀ row ∈ b.trigger_mask, row.countP id = model.relation_embeds.length)
    (hperm : p.Perm (List.range B)) :
    ∃ out, decode model b "parallel" = (1, .ok (b, out)) ∧
      decode model (gatherBundle p b) "parallel" =
        (1, .ok (gatherBundle p b, gatherRows p out)) := by
  have hplen : p.length = B := by simpa using hperm.length_eq
  have hpmem : ∀ i ∈ p, i < B := by
    intro i hi
    have h2 := hperm.mem_iff.1 hi
    simpa using h2
  obtain ⟨out, hdec, hlen, hpt⟩ := parallel_rowwise model b B L g hrowfwd hwf hT
  have hwf2 : WFBundle (gatherBundle p b) B L :=
    ⟨gather_dims p _ B L hwf.1 hpmem hplen,
     gather_dims p _ B L hwf.2.1 hpmem hplen,
     gather_dims p _ B L hwf.2.2.1 hpmem hplen,
     gather_dims p _ B L hwf.2.2.2 hpmem hplen⟩
  have hT2 : ∀ row ∈ (gatherBundle p b).trigger_mask,
      row.countP id = model.relation_embeds.length :=
    gather_rows_prop p b.trigger_mask B _ hwf.2.1.1 hpmem hT
  obtain ⟨out2, hdec2, hlen2, hpt2⟩ := parallel_rowwise model (gatherBundle p b) B L g
    hrowfwd hwf2 hT2
  have hout2 : out2 = gatherRows p out := by
    apply list_ext_getD
    · rw [hlen2, gatherRows_length, hplen]
    · intro j hj
      have hjB : j < B := hlen2 ▸ hj
      have hjp : j < p.length := by omega
      have hpj_mem : p.getD j 0 ∈ p := by
        rw [List.getD_eq_getElem _ _ hjp]
        exact List.getElem_mem hjp
      have hpjB : p.getD j 0 < B := hpmem _ hpj_mem
      rw [hpt2 j hjB, gatherRows_getD p out j hjp, hpt (p.getD j 0) hpjB]
      rw [show (gatherBundle p b).input_ids = gatherRows p b.input_ids from rfl,
        show (gatherBundle p b).trigger_mask = gatherRows p b.trigger_mask from rfl,
        show (gatherBundle p b).predict_mask = gatherRows p b.predict_mask from rfl,
        show (gatherBundle p b).attention_mask = gatherRows p b.attention_mask from rfl,
        gatherRows_getD p b.input_ids j hjp, gatherRows_getD p b.trigger_mask j hjp,
        gatherRows_getD p b.predict_mask j hjp, gatherRows_getD p b.attention_mask j hjp]
  exact ⟨out, hdec, by rw [hdec2, hout2]⟩

/-- Per-row forward function of the permutation witness model. -/
def wModel9g : List (List Int) → List Nat → List (List Int) :=
  fun e _ => e.map fun _ => [1, 2]

/-- Two-example model whose forward pass is per-row by construction. -/
def wModel9 : Model :=
  { embeds := fun t => [Int.ofNat t]
    relation_embeds := []
    forward := fun e a => List.zipWith wModel9g e a }

/-- Two-example bundle for the permutation witness, with differing rows. -/
def wBundle9 : ModelInputs :=
  { input_ids := [[1, 2], [3, 4]]
    trigger_mask := [[false, false], [false, false]]
    predict_mask := [[true, false], [false, true]]
    attention_mask := [[1, 1], [1, 1]] }

/-- Witness for C9: swapping the two rows of a batch permutes the parallel
decode output rows identically. -/
theorem decode_parallel_permutation_witness :
    ([1, 0] : List Nat).Perm (List.range 2) ∧
    (∃ out, decode wModel9 wBundle9 "parallel" = (1, .ok (wBundle9, out)) ∧
      decode wModel9 (gatherBundle [1, 0] wBundle9) "parallel" =
        (1, .ok (gatherBundle [1, 0] wBundle9, gatherRows [1, 0] out))) :=
  ⟨by decide, decode_parallel_permutation wModel9 wBundle9 2 2 wModel9g [1, 0]
    (fun e a => rfl)
    ⟨⟨by decide, by decide⟩, ⟨by decide, by decide⟩, ⟨by decide, by decide⟩,
      ⟨by decide, by decide⟩⟩
    (by decide) (by decide)⟩

/-- C10 counterexample: both examples of this batch share the identical
predict mask `[false, true]`, yet the iterative strategy does NOT behave as
specified: position (0,0) is not a predict position, but the decoded output
holds token id 0 there instead of the ignore sentinel, because the loop runs
the batch-total count of predict entries (2) while the first iteration
already clears the shared column for both rows, and the surplus iteration
commits an all-suppressed argmax at column 0. -/
theorem cex_identical_masks :
    (∀ row ∈ cexBundle.predict_mask, row = [false, true]) ∧
    get2 false cexBundle.predict_mask 0 0 = false ∧
    (getOut (decode cexModel cexBundle "iterative")).map (fun o => get2 0 o 0 0) =
      some 0 :=
  ⟨by decide, by decide, by rfl⟩

/-- C10 (amended): in the monotonic and iterative strategies decode commits
column-wise across the whole batch and iterates the batch-total count of
predict entries; consequently, for a batch of two or more examples the
strategies do not behave as specified even when all examples share an
identical predict mask: with at least one predict position per row, the
iterative strategy returns an output buffer holding token id 0 at the
non-predict position (0,0) instead of the ignore sentinel (and the monotonic
strategy raises an index error, as the C1 counterexample shows). -/
theorem iterative_batch_overruns (model : Model) (b : ModelInputs)
    (B L V : Nat) (m : List Bool)
    (hwf : WFBundle b B L)
    (htrig : countTrue b.trigger_mask = B * model.relation_embeds.length)
    (hlog : LogitsGood model B L V) (hV : 1 ≤ V) (hL : 1 ≤ L) (hB : 2 ≤ B)
    (hrows : ∀ row ∈ b.predict_mask, row = m)
    (hpos : 1 ≤ m.countP id)
    (h00 : m.getD 0 false = false) :
    ∃ k st, decode model b "iterative" = (k, .ok st) ∧
      get2 false b.predict_mask 0 0 = false ∧
      get2 0 st.2 0 0 = 0 ∧ get2 0 st.2 0 0 ≠ ignoreIndex := by
  obtain ⟨hdi, hdt, hdp, hda⟩ := hwf
  have hmlen : m.length = L := by
    have h0 : (0 : Nat) < b.predict_mask.length := by rw [hdp.1]; omega
    have h1 := rows_eq_getD b.predict_mask m 0 hrows h0
    rw [← h1, List.getD_eq_getElem _ _ h0]
    exact hdp.2 _ (List.getElem_mem h0)
  have hcount : countTrue b.predict_mask = B * m.countP id := by
    rw [countTrue_per_row b.predict_mask (m.countP id)
      (fun row hrow => by rw [hrows row hrow]), hdp.1]
  rw [decode_iterative_def, hcount]
  obtain ⟨k, st, hloop, hst⟩ := iter_batch_loop model B L V hlog hV (by omega) hL
    (m.countP id) (B * m.countP id)
    (by
      have h2 : 2 * m.countP id ≤ B * m.countP id := Nat.mul_le_mul_right _ hB
      omega)
    b m (mkOutput b.input_ids) hdi htrig hdp.1 hrows hmlen rfl
    (mkOutput_rows _ B L hdi)
  refine ⟨k, st, hloop, ?_, hst, by rw [hst]; decide⟩
  rw [get2, rows_eq_getD b.predict_mask m 0 hrows (by rw [hdp.1]; omega), h00]

/-- Witness for C10: the amended theorem applied to a concrete two-example
batch with identical predict masks. -/
theorem iterative_batch_overruns_witness :
    (2 : Nat) ≤ cexBundle.input_ids.length ∧
    (∃ k st, decode cexModel cexBundle "iterative" = (k, .ok st) ∧
      get2 false cexBundle.predict_mask 0 0 = false ∧
      get2 0 st.2 0 0 = 0 ∧ get2 0 st.2 0 0 ≠ ignoreIndex) :=
  ⟨by decide, iterative_batch_overruns cexModel cexBundle 2 2 2 [false, true]
    ⟨⟨by decide, by decide⟩, ⟨by decide, by decide⟩, ⟨by decide, by decide⟩,
      ⟨by decide, by decide⟩⟩
    (by decide)
    (by
      intro e a h1 h2
      constructor
      · rfl
      · rw [show cexModel.forward e a = [[[1, 2], [3, 4]], [[5, 6], [7, 8]]] from rfl]
        decide)
    (by decide) (by decide) (by decide) (by decide) (by decide) (by decide)⟩
